import Mathlib

/-!
Shallow embedding of the portfolio-backtesting engine
(`src/backtesting/backtester.py`) and of the allocation strategies
(`src/strategies/*.py`) that the verified claims refer to.

Modelling conventions:
* pandas/numpy float64 values are modelled as exact rationals (`ℚ`); a value that
  is not a finite float (NaN or ±Inf) is modelled as `none` in `Option ℚ`.
* A pandas DataFrame with complete (non-missing) data is a list of rows,
  `List (List ℚ)`, in date order; positional row indices replace date labels
  (the tables are sorted by date, so positional order is date order).
* Python `int` truncation (`np.asarray(•, dtype=int)`) is `Int.tdiv`
  truncation toward zero, exactly as numpy casts float64 to int64.
* The one fallible numpy operation on the engine's happy path — multiplying an
  ndarray by a pandas Series of a different length — is modelled in the
  `Except String` monad; everything else is total.
-/

namespace PortfolioBacktest

/-- A market-data table: one row per period date, one rational entry per asset
column.  Models a pandas DataFrame holding complete float data. -/
abbrev Mat : Type := List (List ℚ)

/-- A float value: `some q` is a finite value, `none` a non-finite one (NaN or
±Inf).  The operations below propagate `none` exactly as IEEE arithmetic
propagates non-finite values on the code paths modelled here. -/
abbrev OQ : Type := Option ℚ

/-- Float addition: non-finite operands poison the result. -/
def oadd : OQ → OQ → OQ
  | some a, some b => some (a + b)
  | _, _ => none

/-- Float subtraction: non-finite operands poison the result. -/
def osub : OQ → OQ → OQ
  | some a, some b => some (a - b)
  | _, _ => none

/-- Float multiplication: non-finite operands poison the result. -/
def omul : OQ → OQ → OQ
  | some a, some b => some (a * b)
  | _, _ => none

/-- Float division.  A zero denominator yields a non-finite float
(`0/0 = NaN`, `a/0 = ±Inf` for `a ≠ 0`), hence `none`. -/
def odiv : OQ → OQ → OQ
  | some a, some b => if b = 0 then none else some (a / b)
  | _, _ => none

/-- `np.maximum(0, x)`: NaN propagates, finite values are clamped below by 0. -/
def omax0 : OQ → OQ
  | some a => some (max 0 a)
  | none => none

/-- `pandas.Series.sum()` with its default `skipna=True`: non-finite entries
are dropped, and the sum of an all-NaN or empty series is 0. -/
def skipnaSum (s : List OQ) : ℚ := (s.filterMap id).sum

/-- `numpy.ndarray.sum()`: NaN is not skipped, one non-finite entry poisons
the whole sum. -/
def npSum (s : List OQ) : OQ := s.foldr oadd (some 0)

/-- The comparison `c < x` on a float `x`: false when `x` is NaN. -/
def ogtB (x : OQ) (c : ℚ) : Bool :=
  match x with
  | some q => decide (c < q)
  | none => false

/-- `np.asarray(v, dtype=int)` applied to one float entry: float64 to int64
conversion truncates toward zero. -/
def npIntCast (q : ℚ) : ℤ := q.num.tdiv (q.den : ℤ)

/-- `prices.ffill().pct_change(fill_method=None).dropna()` on a complete price
table: result row `t` is `price[t+1]/price[t] - 1`; the undefined first row of
`pct_change` is dropped, so the result has one row fewer than `prices`. -/
def pctChange (P : Mat) : Mat :=
  List.zipWith (fun prev curr => List.zipWith (fun p c => c / p - 1) prev curr) P (P.drop 1)

/-- `table.iloc[a : b]`: positional slice, start inclusive, end exclusive. -/
def sliceWindow (M : Mat) (a b : ℕ) : Mat := (M.drop a).take (b - a)

/-- Growth factors `price_hist.iloc[-1] / price_hist.iloc[-2]` between the
last two rows of the sliced price window. -/
def growthOf (hist : Mat) : List ℚ :=
  let prev := hist.dropLast.getLast?.getD []
  let curr := hist.getLast?.getD []
  List.zipWith (fun c p => c / p) curr prev

/-- The three columns of the DataFrame a strategy's `optimize` returns that
the engine consumes: 'New Allocation', 'New Portfolio' (finite dollar
vectors) and 'New Weights' (floats, possibly non-finite). -/
structure StratOutput where
  alloc : List ℚ
  portfolio : List ℚ
  weights : List OQ
deriving DecidableEq

/-- A stateless allocation policy, the engine-facing shape of
`optimize(current_portfolio, new_capital, price_history, returns_history)`. -/
abbrev Policy := List ℚ → ℚ → Mat → Mat → StratOutput

/-- The flat per-trade transaction fee of 1.75 EUR. -/
def tradeFee : ℚ := 7/4

/-- One Period Record: the per-period data `Backtester.run` appends to its
buffers for one strategy (integer-cast allocations, post-fee asset values,
reported weights, total value). -/
structure PeriodRecord where
  allocs : List ℤ
  vals : List ℚ
  weights : List OQ
  total : ℚ
deriving DecidableEq

/-- Multiplying an ndarray by a pandas Series (`buf['curr'] * growth`) raises
a ValueError unless the lengths match. -/
def seriesMul (a b : List ℚ) : Except String (List ℚ) :=
  if a.length = b.length then .ok (List.zipWith (· * ·) a b)
  else .error "Unable to coerce to Series"

/-- One iteration of `Backtester.run`'s time loop at loop index `idx` for one
strategy whose entering Portfolio State is `curr`.  In the source
`hist_start = max(0, idx - rolling_window)`; natural-number subtraction
`idx - w` is exactly that value. -/
def engineStep (prices returns : Mat) (pol : Policy) (cash : ℚ) (w : ℕ)
    (curr : List ℚ) (idx : ℕ) : Except String PeriodRecord :=
  let histStart := idx - w
  let priceHist := sliceWindow prices histStart (idx + 1)
  let returnsHist := sliceWindow returns histStart (idx + 1)
  let growth := growthOf priceHist
  match seriesMul curr growth with
  | .error e => .error e
  | .ok aged =>
    let out := pol aged cash priceHist returnsHist
    let newAllocs := out.alloc.map npIntCast
    let newValsI := out.portfolio.map npIntCast
    let newVals := List.zipWith
      (fun (v a : ℤ) => (v : ℚ) - tradeFee * (if 0 < a then 1 else 0)) newValsI newAllocs
    .ok ⟨newAllocs, newVals, out.weights, newVals.sum⟩

/-- The engine's time-evolution loop over the remaining loop indices, carrying
the live Portfolio State (`buf['curr']`) and appending one record per index. -/
def runLoop (prices returns : Mat) (pol : Policy) (cash : ℚ) (w : ℕ) :
    List ℚ → List ℕ → Except String (List PeriodRecord)
  | _, [] => .ok []
  | curr, idx :: rest =>
    match engineStep prices returns pol cash w curr idx with
    | .error e => .error e
    | .ok r =>
      match runLoop prices returns pol cash w r.vals rest with
      | .error e => .error e
      | .ok rs => .ok (r :: rs)

/-- `Backtester.run` restricted to one strategy: `returns` is derived by
`pctChange`, and `idx` iterates over `range(rolling_window, len(self.dates))`
where `self.dates = returns.index`. -/
def runStrategy (prices : Mat) (pol : Policy) (init : List ℚ) (cash : ℚ) (w : ℕ) :
    Except String (List PeriodRecord) :=
  let returns := pctChange prices
  runLoop prices returns pol cash w init (List.range' w (returns.length - w))

/-- The date index of every result table: `self.dates[rolling_window:]` where
`self.dates = returns.index` is the price index with its first date dropped. -/
def outputDates {α : Type} (priceDates : List α) (w : ℕ) : List α :=
  (priceDates.drop 1).drop w

/-- The `.round(3)` applied by `EqualWeightStrategy` to each weight.  `round`
here rounds halves up while numpy rounds halves to even; the two agree at
every non-tie, and no value in this development sits on a tie. -/
def round3 (q : ℚ) : ℚ := ((round (q * 1000) : ℤ) : ℚ) / 1000

/-- `EqualWeightStrategy.optimize`: equal split of the new capital, weights
`new_portfolio / new_portfolio.sum()` rounded to 3 decimals (a zero total
makes every weight non-finite: `0/0 = NaN`, `v/0 = ±Inf`). -/
def equalWeightOptimize (current : List ℚ) (cash : ℚ) : StratOutput :=
  let n := current.length
  let allocation := List.replicate n (cash / (n : ℚ))
  let newPortfolio := List.zipWith (· + ·) current allocation
  let s := newPortfolio.sum
  let weights := newPortfolio.map (fun v => if s = 0 then none else some (round3 (v / s)))
  ⟨allocation, newPortfolio, weights⟩

/-- `EqualWeightStrategy` as an engine policy (it ignores the histories). -/
def equalWeightPolicy : Policy := fun current cash _ _ => equalWeightOptimize current cash

/-- Output DataFrame of the strategies whose 'New Allocation', 'New Portfolio'
and 'New Weights' columns can carry non-finite floats
(`MomentumStrategy`, `RiskParityStrategy`). -/
structure FloatStratOutput where
  alloc : List OQ
  portfolio : List OQ
  weights : List OQ
deriving DecidableEq

/-- Per-column mean of a sliced returns DataFrame with `n` asset columns
(`DataFrame.mean()`): NaN (`none`) for an empty window. -/
def colMeans (n : ℕ) (m : Mat) : List OQ :=
  (List.range n).map (fun j =>
    if m.length = 0 then none
    else some ((m.map (fun r => r.getD j 0)).sum / (m.length : ℚ)))

/-- Per-column sample variance with `ddof = 1`, the square of
`DataFrame.std()`: NaN (`none`) for fewer than 2 rows. -/
def colVars (n : ℕ) (m : Mat) : List OQ :=
  (List.range n).map (fun j =>
    if m.length ≤ 1 then none
    else
      let xs := m.map (fun r => r.getD j 0)
      let mu := xs.sum / (xs.length : ℚ)
      some ((xs.map (fun x => (x - mu) ^ 2)).sum / ((xs.length : ℚ) - 1)))

/-- The filter condition `vol > vol_threshold` of `MomentumStrategy`, expressed
on the sample variance: `vol = sqrt var ≥ 0` is irrational in general, but
`sqrt var > θ ↔ θ < 0 ∨ var > θ²`, and a NaN variance (NaN vol) compares
false. -/
def momVolExceeds (var : OQ) (θ : ℚ) : Bool :=
  match var with
  | some v => decide (θ < 0 ∨ θ ^ 2 < v)
  | none => false

/-- The buy-only target step shared by several strategies:
`np.maximum(target_portfolio - current_portfolio, 0)` element-wise. -/
def buyOnlyAlloc (target : List OQ) (current : List ℚ) : List OQ :=
  List.zipWith (fun tg c => omax0 (osub tg (some c))) target current

/-- The proportional rescale `allocation / allocation.sum() * new_capital`
guarded by `if allocation.sum() > new_capital`, with the pandas
`Series.sum()` (NaN-skipping) semantics used when `allocation` is a Series
(`RiskParityStrategy`, where `w` stays a pandas object). -/
def rescaleSkipna (allocation : List OQ) (cash : ℚ) : List OQ :=
  if cash < skipnaSum allocation
  then allocation.map (fun a => omul (odiv a (some (skipnaSum allocation))) (some cash))
  else allocation

/-- The same proportional rescale with `numpy` ndarray semantics
(`MomentumStrategy`, where `weights = (...).values` makes `allocation` an
ndarray): the sum propagates NaN and the NaN comparison is false. -/
def rescaleNp (allocation : List OQ) (cash : ℚ) : List OQ :=
  if ogtB (npSum allocation) cash
  then allocation.map (fun a => omul (odiv a (npSum allocation)) (some cash))
  else allocation

/-- The clip `momentum_returns[momentum_returns < 0] = 0` applied to one
entry: negative finite momentum becomes 0, NaN stays NaN (`NaN < 0` is
false). -/
def clipNeg : OQ → OQ
  | some v => if v < 0 then some 0 else some v
  | none => none

/-- One entry of `vol.replace(0, np.nan)`: an exact zero becomes NaN. -/
def replaceZeroNaN : OQ → OQ
  | some x => if x = 0 then none else some x
  | none => none

/-- Steps 1–3 of `MomentumStrategy.optimize`: mean returns over the lookback
tail (`returns_history[-lookback:]`, the whole table when `lookback = 0`),
negative momentum clipped to 0, high-volatility assets zeroed.  Setting an
entry to 0 happens even when the entry is NaN, but a NaN volatility leaves
the entry untouched. -/
def momentumSignal (nTickers lookback : ℕ) (volThreshold : ℚ)
    (returnsHist : Mat) : List OQ :=
  let tail := if lookback = 0 then returnsHist
    else returnsHist.drop (returnsHist.length - lookback)
  let momentum0 := colMeans nTickers tail
  let momentum1 := momentum0.map clipNeg
  let vars := colVars nTickers tail
  List.zipWith
    (fun mo va => if momVolExceeds va volThreshold then some 0 else mo) momentum1 vars

/-- Steps 4–5 of `MomentumStrategy.optimize`: normalize the signal or fall
back to equal weights when it sums (NaN-skipping pandas sum) to zero, then
optionally blend `0.7 * weights + 0.3 * equal_weights`. -/
def momentumWeights (nTickers lookback : ℕ) (diversification : Bool)
    (volThreshold : ℚ) (returnsHist : Mat) : List OQ :=
  let signal := momentumSignal nTickers lookback volThreshold returnsHist
  let equalWeights : List OQ := List.replicate nTickers (some (1 / (nTickers : ℚ)))
  let weights := if skipnaSum signal = 0 then equalWeights
    else signal.map (fun x => odiv x (some (skipnaSum signal)))
  if diversification
  then List.zipWith (fun wv ew => oadd (omul (some (7/10)) wv) (omul (some (3/10)) ew))
    weights equalWeights
  else weights

/-- `MomentumStrategy.optimize` steps 6–7: convert weights to dollar targets
against `Vt = sum(current) + new_capital`, take the buy-only positive part,
rescale not to exceed the new capital, and add to the current portfolio. -/
def momentumOptimize (nTickers lookback : ℕ) (diversification : Bool)
    (volThreshold : ℚ) (current : List ℚ) (cash : ℚ) (returnsHist : Mat) :
    FloatStratOutput :=
  let Vt := current.sum + cash
  let weights := momentumWeights nTickers lookback diversification volThreshold returnsHist
  let target := weights.map (fun wv => omul wv (some Vt))
  let allocation := rescaleNp (buyOnlyAlloc target current) cash
  let newPortfolio := List.zipWith (fun c a => oadd (some c) a) current allocation
  ⟨allocation, newPortfolio, weights⟩

/-- Step 1 of `RiskParityStrategy.optimize`: inverse-volatility weights
`w = inv_vol / inv_vol.sum()` after `vol.replace(0, np.nan)` and
`inv_vol = 1 / vol`, with the pandas NaN-skipping sum. -/
def riskParityW (vol : List OQ) : List OQ :=
  let volR := vol.map replaceZeroNaN
  let invVol := volR.map (fun v => odiv (some 1) v)
  invVol.map (fun x => odiv x (some (skipnaSum invVol)))

/-- `RiskParityStrategy.optimize`.  The per-asset volatility `vol` — the
sample standard deviation of `returns_history`, an irrational square root in
general — is a parameter; `vol[i]` is `some 0` exactly when `colVars` gives
sample variance 0 for asset `i` (the only square root that stays rational in
general), positive exactly when the variance is positive, and `none` exactly
when the variance is NaN. -/
def riskParityOptimize (vol : List OQ) (current : List ℚ) (cash : ℚ) :
    FloatStratOutput :=
  let Vt := current.sum + cash
  let w := riskParityW vol
  let target := w.map (fun wv => omul (some Vt) wv)
  let allocation := rescaleSkipna (buyOnlyAlloc target current) cash
  let newPortfolio := List.zipWith (fun c a => oadd (some c) a) current allocation
  let weights := if 0 < skipnaSum newPortfolio
    then newPortfolio.map (fun v => odiv v (some (skipnaSum newPortfolio)))
    else List.replicate newPortfolio.length (some 0)
  ⟨allocation, newPortfolio, weights⟩

/-- `ValueAveragingStrategy.optimize`.  `t` is the internal period counter
`self.t` after the increment the method performs on entry (so `t = 1` on the
first call); `nTickers = len(self.tickers)`. -/
def valueAveragingOptimize (nTickers : ℕ) (rate : ℚ) (t : ℕ)
    (current : List ℚ) (cash : ℚ) : StratOutput :=
  let V0 := current.sum
  let Vtarget := cash * (t : ℚ) * (1 + rate)
  let D0 := max 0 (Vtarget - V0)
  let D := min D0 cash
  let equalAlloc := if 0 < D then D / (nTickers : ℚ) else 0
  let target := current.map (· + equalAlloc)
  let allocation := List.zipWith (fun tg c => max (tg - c) 0) target current
  let allocation2 := if cash < allocation.sum
    then allocation.map (fun a => a / allocation.sum * cash)
    else allocation
  let newPortfolio := List.zipWith (· + ·) current allocation2
  let total := newPortfolio.sum
  let weights := if 0 < total then newPortfolio.map (fun v => some (v / total))
    else List.replicate newPortfolio.length (some 0)
  ⟨allocation2, newPortfolio, weights⟩

/-- The concrete scenario price table `[[100,50],[110,55],[121,50]]`. -/
def prices3 : Mat := [[100, 50], [110, 55], [121, 50]]

/-- The scenario price table extended by one flat period, used to exercise a
second simulated period. -/
def prices4 : Mat := [[100, 50], [110, 55], [121, 50], [121, 50]]

end PortfolioBacktest

namespace PortfolioBacktest

/-- Truncation toward zero on ℚ is floor for non-negative values and ceiling
for negative ones. -/
theorem npIntCast_eq (q : ℚ) : npIntCast q = if 0 ≤ q then ⌊q⌋ else ⌈q⌉ := by
  unfold npIntCast
  by_cases h : 0 ≤ q
  · rw [if_pos h, Int.tdiv_eq_ediv (Rat.num_nonneg.mpr h) (by positivity),
      Rat.floor_def]
  · rw [if_neg h]
    push_neg at h
    have hnum : q.num < 0 := Rat.num_neg.mpr h
    have h1 : q.num.tdiv (q.den : ℤ) = -((-q.num).tdiv (q.den : ℤ)) := by
      rw [Int.neg_tdiv, neg_neg]
    rw [h1, Int.tdiv_eq_ediv (by omega) (by positivity)]
    have h2 : (-q).num = -q.num := Rat.neg_num q
    have h3 : (-q).den = q.den := Rat.neg_den q
    have h4 : ⌈q⌉ = -⌊-q⌋ := by rw [Int.floor_neg]; ring
    rw [h4, Rat.floor_def, h2, h3]

/-- C1 (counterexample): in the concrete scenario (2 assets, prices
`[[100,50],[110,55],[121,50]]`, rolling_window 1, monthly cash 100, zero
initial allocation, EqualWeightStrategy) the engine produces exactly ONE
period record — the loop runs over `range(rolling_window, len(returns))`
with `len(returns) = 2`, i.e. over `[1]` only — so the claimed second period
at `idx = 2` never executes. -/
theorem claim1_counterexample :
    runStrategy prices3 equalWeightPolicy [0, 0] 100 1 =
      .ok [⟨[50, 50], [193/4, 193/4], [some (1/2), some (1/2)], 193/2⟩] ∧
    ([(⟨[50, 50], [193/4, 193/4], [some (1/2), some (1/2)], 193/2⟩ : PeriodRecord)]).length ≠ 2 := by
  refine ⟨?_, by norm_num⟩
  norm_num [runStrategy, pctChange, prices3, runLoop, engineStep, sliceWindow,
    growthOf, seriesMul, equalWeightPolicy, equalWeightOptimize, npIntCast_eq,
    round3, round_eq, tradeFee, List.range', List.replicate]

/-- C1 (amended): the scenario run executes exactly one period, the one at
loop index 1 over the 2-element return-date grid, with growth `[1.1, 1.1]`,
allocation `[50, 50]`, post-fee values `[48.25, 48.25]`, weights
`[0.5, 0.5]` and total `96.5`; no `idx = 2` period exists because iteration
stops at `len(returns) - 1 = 1`. -/
theorem claim1_thm :
    runStrategy prices3 equalWeightPolicy [0, 0] 100 1 =
      .ok [⟨[50, 50], [193/4, 193/4], [some (1/2), some (1/2)], 193/2⟩] ∧
    growthOf (sliceWindow prices3 (1 - 1) (1 + 1)) = [11/10, 11/10] := by
  constructor
  · norm_num [runStrategy, pctChange, prices3, runLoop, engineStep, sliceWindow,
      growthOf, seriesMul, equalWeightPolicy, equalWeightOptimize, npIntCast_eq,
      round3, round_eq, tradeFee, List.range', List.replicate]
  · norm_num [growthOf, sliceWindow, prices3]

/-- The length of the derived return table is one less than the price table's. -/
theorem pctChange_length (P : Mat) : (pctChange P).length = P.length - 1 := by
  simp only [pctChange, List.length_zipWith, List.length_drop]
  omega

/-- A successful engine loop produces exactly one record per loop index. -/
theorem runLoop_ok_length (prices returns : Mat) (pol : Policy) (cash : ℚ) (w : ℕ) :
    ∀ (idxs : List ℕ) (curr : List ℚ) (recs : List PeriodRecord),
      runLoop prices returns pol cash w curr idxs = .ok recs →
      recs.length = idxs.length := by
  intro idxs
  induction idxs with
  | nil =>
    intro curr recs h
    simp only [runLoop] at h
    cases h
    rfl
  | cons i rest ih =>
    intro curr recs h
    simp only [runLoop] at h
    split at h
    · cases h
    · split at h
      · cases h
      · next r rs heq =>
        cases h
        rw [List.length_cons, List.length_cons, ih _ _ heq]

/-- C5: at loop index `idx` the engine's history window is
`table.iloc[max(0, idx - rolling_window) : idx + 1]` — it equals the prefix of
the first `idx + 1` rows with the first `idx - w` of them dropped, its length
grows as `idx + 1` until it reaches the fixed trailing width `w + 1`, its
first row is row `max(0, idx - w)` and its last row is row `idx` itself
(inclusive); and the engine hands the policy exactly these slices.
Natural-number subtraction `idx - w` is precisely `max(0, idx - w)`. -/
theorem claim5_thm (M : Mat) (w idx : ℕ) (h : idx < M.length) :
    sliceWindow M (idx - w) (idx + 1) = (M.take (idx + 1)).drop (idx - w) ∧
    (sliceWindow M (idx - w) (idx + 1)).length = min (w + 1) (idx + 1) ∧
    (sliceWindow M (idx - w) (idx + 1)).head? = M[idx - w]? ∧
    (sliceWindow M (idx - w) (idx + 1)).getLast? = M[idx]? ∧
    ∀ (returns : Mat) (pol : Policy) (cash : ℚ) (curr : List ℚ),
      engineStep M returns pol cash w curr idx =
        engineStep M returns
          (fun cp nc _ _ => pol cp nc (sliceWindow M (idx - w) (idx + 1))
            (sliceWindow returns (idx - w) (idx + 1))) cash w curr idx := by
  have hlen : (sliceWindow M (idx - w) (idx + 1)).length = idx + 1 - (idx - w) := by
    simp only [sliceWindow, List.length_take, List.length_drop]
    omega
  refine ⟨?_, ?_, ?_, ?_, ?_⟩
  · rw [sliceWindow, List.drop_take]
  · rw [hlen]; omega
  · rw [sliceWindow, List.head?_eq_getElem?,
      List.getElem?_take_of_lt (by omega), List.getElem?_drop]
    simp
  · rw [List.getLast?_eq_getElem?, hlen, sliceWindow,
      List.getElem?_take_of_lt (by omega), List.getElem?_drop]
    congr 1
    omega
  · intro returns pol cash curr
    rfl

/-- C5 witness: the window characterization at the concrete scenario
(`prices3`, rolling_window 1, loop index 1). -/
theorem claim5_witness :
    sliceWindow prices3 (1 - 1) (1 + 1) = (prices3.take (1 + 1)).drop (1 - 1) ∧
    (sliceWindow prices3 (1 - 1) (1 + 1)).length = min (1 + 1) (1 + 1) ∧
    (sliceWindow prices3 (1 - 1) (1 + 1)).head? = prices3[1 - 1]? ∧
    (sliceWindow prices3 (1 - 1) (1 + 1)).getLast? = prices3[1]? ∧
    engineStep prices3 (pctChange prices3) equalWeightPolicy 100 1 [0, 0] 1 =
      engineStep prices3 (pctChange prices3)
        (fun cp nc _ _ => equalWeightPolicy cp nc (sliceWindow prices3 (1 - 1) (1 + 1))
          (sliceWindow (pctChange prices3) (1 - 1) (1 + 1))) 100 1 [0, 0] 1 :=
  ⟨(claim5_thm prices3 1 1 (by norm_num [prices3])).1,
   (claim5_thm prices3 1 1 (by norm_num [prices3])).2.1,
   (claim5_thm prices3 1 1 (by norm_num [prices3])).2.2.1,
   (claim5_thm prices3 1 1 (by norm_num [prices3])).2.2.2.1,
   (claim5_thm prices3 1 1 (by norm_num [prices3])).2.2.2.2
     (pctChange prices3) equalWeightPolicy 100 [0, 0]⟩

/-- C3: whenever the run succeeds and there are at least `rolling_window + 1`
return periods, every strategy's result series has exactly
`len(dates) - rolling_window` rows (`dates` being the engine's return-date
grid), the output date index starts exactly at `dates[rolling_window]`, and
any two strategies' result series have the same number of rows over the same
policy-independent date index `outputDates`. -/
theorem claim3_thm {α : Type} (prices : Mat) (pol : Policy) (init : List ℚ)
    (cash : ℚ) (w : ℕ) (recs : List PeriodRecord) (priceDates : List α)
    (hok : runStrategy prices pol init cash w = .ok recs)
    (hlen : w + 1 ≤ (pctChange prices).length) :
    recs.length = (pctChange prices).length - w ∧
    0 < recs.length ∧
    (outputDates priceDates w).length = (priceDates.drop 1).length - w ∧
    (outputDates priceDates w).head? = (priceDates.drop 1)[w]? ∧
    ∀ (pol2 : Policy) (recs2 : List PeriodRecord),
      runStrategy prices pol2 init cash w = .ok recs2 →
      recs2.length = recs.length := by
  simp only [runStrategy] at hok
  have h1 : recs.length = (pctChange prices).length - w := by
    rw [runLoop_ok_length _ _ _ _ _ _ _ _ hok, List.length_range']
  refine ⟨h1, by omega, by simp only [outputDates, List.length_drop],
    List.head?_drop _ _, ?_⟩
  intro pol2 recs2 hok2
  simp only [runStrategy] at hok2
  rw [runLoop_ok_length _ _ _ _ _ _ _ _ hok2, List.length_range', h1]

/-- C3 witness: the alignment facts at the concrete scenario. -/
theorem claim3_witness :
    ([(⟨[50, 50], [193/4, 193/4], [some (1/2), some (1/2)], 193/2⟩ : PeriodRecord)]).length =
      (pctChange prices3).length - 1 ∧
    0 < ([(⟨[50, 50], [193/4, 193/4], [some (1/2), some (1/2)], 193/2⟩ : PeriodRecord)]).length ∧
    (outputDates [0, 1, 2] 1).length = (([0, 1, 2] : List ℕ).drop 1).length - 1 ∧
    (outputDates [0, 1, 2] 1).head? = (([0, 1, 2] : List ℕ).drop 1)[1]? ∧
    ([(⟨[50, 50], [193/4, 193/4], [some (1/2), some (1/2)], 193/2⟩ : PeriodRecord)]).length =
      ([(⟨[50, 50], [193/4, 193/4], [some (1/2), some (1/2)], 193/2⟩ : PeriodRecord)]).length :=
  ⟨(claim3_thm prices3 equalWeightPolicy [0, 0] 100 1 [(⟨[50, 50], [193/4, 193/4], [some (1/2), some (1/2)], 193/2⟩ : PeriodRecord)] [0, 1, 2]
    (by norm_num [runStrategy, pctChange, prices3, runLoop, engineStep, sliceWindow,
      growthOf, seriesMul, equalWeightPolicy, equalWeightOptimize, npIntCast_eq,
      round3, round_eq, tradeFee, List.range', List.replicate])
    (by norm_num [pctChange, prices3])).1,
   (claim3_thm prices3 equalWeightPolicy [0, 0] 100 1 [(⟨[50, 50], [193/4, 193/4], [some (1/2), some (1/2)], 193/2⟩ : PeriodRecord)] [0, 1, 2]
    (by norm_num [runStrategy, pctChange, prices3, runLoop, engineStep, sliceWindow,
      growthOf, seriesMul, equalWeightPolicy, equalWeightOptimize, npIntCast_eq,
      round3, round_eq, tradeFee, List.range', List.replicate])
    (by norm_num [pctChange, prices3])).2.1,
   (claim3_thm prices3 equalWeightPolicy [0, 0] 100 1 [(⟨[50, 50], [193/4, 193/4], [some (1/2), some (1/2)], 193/2⟩ : PeriodRecord)] [0, 1, 2]
    (by norm_num [runStrategy, pctChange, prices3, runLoop, engineStep, sliceWindow,
      growthOf, seriesMul, equalWeightPolicy, equalWeightOptimize, npIntCast_eq,
      round3, round_eq, tradeFee, List.range', List.replicate])
    (by norm_num [pctChange, prices3])).2.2.1,
   (claim3_thm prices3 equalWeightPolicy [0, 0] 100 1 [(⟨[50, 50], [193/4, 193/4], [some (1/2), some (1/2)], 193/2⟩ : PeriodRecord)] [0, 1, 2]
    (by norm_num [runStrategy, pctChange, prices3, runLoop, engineStep, sliceWindow,
      growthOf, seriesMul, equalWeightPolicy, equalWeightOptimize, npIntCast_eq,
      round3, round_eq, tradeFee, List.range', List.replicate])
    (by norm_num [pctChange, prices3])).2.2.2.1,
   (claim3_thm prices3 equalWeightPolicy [0, 0] 100 1 [(⟨[50, 50], [193/4, 193/4], [some (1/2), some (1/2)], 193/2⟩ : PeriodRecord)] [0, 1, 2]
    (by norm_num [runStrategy, pctChange, prices3, runLoop, engineStep, sliceWindow,
      growthOf, seriesMul, equalWeightPolicy, equalWeightOptimize, npIntCast_eq,
      round3, round_eq, tradeFee, List.range', List.replicate])
    (by norm_num [pctChange, prices3])).2.2.2.2 equalWeightPolicy [(⟨[50, 50], [193/4, 193/4], [some (1/2), some (1/2)], 193/2⟩ : PeriodRecord)]
    (by norm_num [runStrategy, pctChange, prices3, runLoop, engineStep, sliceWindow,
      growthOf, seriesMul, equalWeightPolicy, equalWeightOptimize, npIntCast_eq,
      round3, round_eq, tradeFee, List.range', List.replicate])⟩

/-- Truncation toward zero of a non-negative rational is non-negative. -/
theorem npIntCast_nonneg (q : ℚ) (h : 0 ≤ q) : 0 ≤ npIntCast q := by
  rw [npIntCast_eq, if_pos h]
  exact Int.floor_nonneg.mpr h

/-- Post-fee asset values derived from a componentwise non-negative policy
portfolio are bounded below by minus the flat fee. -/
theorem vals_lower_bound (P : List ℚ) (A : List ℤ) (hP : ∀ x ∈ P, 0 ≤ x) :
    ∀ v ∈ List.zipWith (fun (v a : ℤ) => (v : ℚ) - tradeFee * (if 0 < a then 1 else 0))
      (P.map npIntCast) A, -tradeFee ≤ v := by
  induction P generalizing A with
  | nil => simp
  | cons p ps ih =>
    cases A with
    | nil => simp
    | cons a as =>
      intro v hv
      simp only [List.map_cons, List.zipWith_cons_cons, List.mem_cons] at hv
      rcases hv with h | h
      · subst h
        have h0 : (0:ℚ) ≤ ((npIntCast p : ℤ) : ℚ) := by
          exact_mod_cast npIntCast_nonneg p (hP p (by simp))
        have hfee : tradeFee * (if 0 < a then (1:ℚ) else 0) ≤ tradeFee := by
          split
          · simp
          · norm_num [tradeFee]
        linarith
      · exact ih as (fun x hx => hP x (by simp [hx])) v h

/-- C7 (amended): the live Portfolio State after a period is NOT always
non-negative (the flat fee can exceed a small truncated position —
counterexample below); what does hold is that whenever the policy's New
Portfolio is componentwise non-negative, every post-fee value the engine
stores — the next period's state — is at least `-1.75`. -/
theorem claim7_thm (prices returns : Mat) (pol : Policy) (cash : ℚ) (w : ℕ)
    (curr : List ℚ) (idx : ℕ) (r : PeriodRecord)
    (hok : engineStep prices returns pol cash w curr idx = .ok r)
    (hpol : ∀ aged,
      seriesMul curr (growthOf (sliceWindow prices (idx - w) (idx + 1))) = .ok aged →
      ∀ x ∈ (pol aged cash (sliceWindow prices (idx - w) (idx + 1))
        (sliceWindow returns (idx - w) (idx + 1))).portfolio, 0 ≤ x) :
    ∀ v ∈ r.vals, -tradeFee ≤ v := by
  simp only [engineStep] at hok
  split at hok
  · cases hok
  · next aged heq =>
    cases hok
    exact vals_lower_bound _ _ (hpol aged heq)

/-- C7 witness: the lower bound evaluated on the first stored value of the
concrete scenario period. -/
theorem claim7_witness : -tradeFee ≤ (193/4 : ℚ) :=
  claim7_thm prices3 (pctChange prices3) equalWeightPolicy 100 1 [0, 0] 1
    ⟨[50, 50], [193/4, 193/4], [some (1/2), some (1/2)], 193/2⟩
    (by norm_num [pctChange, prices3, engineStep, sliceWindow, growthOf, seriesMul,
      equalWeightPolicy, equalWeightOptimize, npIntCast_eq, round3, round_eq,
      tradeFee, List.replicate])
    (by
      intro aged heq
      norm_num [prices3, sliceWindow, growthOf, seriesMul] at heq
      subst heq
      norm_num [equalWeightPolicy, equalWeightOptimize, List.replicate])
    (193/4) (by norm_num)

/-- C7 (counterexample): with monthly cash 2 the policy buys 1 EUR of each
asset, the truncated position is 1 EUR, and the 1.75 EUR fee leaves the live
state at −0.75 per asset: the recorded state is negative. -/
theorem claim7_counterexample :
    runStrategy prices3 equalWeightPolicy [0, 0] 2 1 =
      .ok [⟨[1, 1], [-3/4, -3/4], [some (1/2), some (1/2)], -3/2⟩] ∧
    ¬ (0 ≤ (-3/4 : ℚ)) := by
  constructor
  · norm_num [runStrategy, pctChange, prices3, runLoop, engineStep, sliceWindow,
      growthOf, seriesMul, equalWeightPolicy, equalWeightOptimize, npIntCast_eq,
      round3, round_eq, tradeFee, List.range', List.replicate]
  · norm_num

/-- C9 (amended): no length validation happens at construction or before the
loop.  If the warm-up window consumes every return date, the run completes
normally and returns empty result series despite the mismatched
`initial_allocation`; otherwise the mismatch surfaces only inside the first
executed period, as the numpy/pandas length error raised by
`buf['curr'] * growth`, before any Period Record is appended. -/
theorem claim9_thm (prices : Mat) (pol : Policy) (init : List ℚ) (cash : ℚ)
    (w N : ℕ) (hrect : ∀ row ∈ prices, row.length = N)
    (hmis : init.length ≠ N) (hw : 1 ≤ w) :
    ((pctChange prices).length ≤ w → runStrategy prices pol init cash w = .ok []) ∧
    (w < (pctChange prices).length →
      runStrategy prices pol init cash w = .error "Unable to coerce to Series") := by
  constructor
  · intro hle
    simp only [runStrategy]
    have h0 : (pctChange prices).length - w = 0 := by omega
    rw [h0]
    rfl
  · intro hlt
    have hplen : w + 2 ≤ prices.length := by
      have := pctChange_length prices
      omega
    simp only [runStrategy]
    obtain ⟨k, hk⟩ : ∃ k, (pctChange prices).length - w = k + 1 :=
      ⟨(pctChange prices).length - w - 1, by omega⟩
    rw [hk, List.range'_succ]
    have hph : sliceWindow prices (w - w) (w + 1) = prices.take (w + 1) := by
      simp [sliceWindow]
    have hlen1 : (prices.take (w + 1)).length = w + 1 := by
      rw [List.length_take]
      omega
    obtain ⟨rowW, hrowW⟩ : ∃ r, prices[w]? = some r := by
      rw [List.getElem?_eq_getElem (show w < prices.length by omega)]
      exact ⟨_, rfl⟩
    obtain ⟨rowP, hrowP⟩ : ∃ r, prices[w - 1]? = some r := by
      rw [List.getElem?_eq_getElem (show w - 1 < prices.length by omega)]
      exact ⟨_, rfl⟩
    have hrowW_mem : rowW ∈ prices := List.getElem?_mem hrowW
    have hrowP_mem : rowP ∈ prices := List.getElem?_mem hrowP
    have hlast : (prices.take (w + 1)).getLast? = some rowW := by
      rw [List.getLast?_eq_getElem?]
      simp only [hlen1, Nat.add_sub_cancel]
      rw [List.getElem?_take_of_lt (by omega)]
      exact hrowW
    have hdl : (prices.take (w + 1)).dropLast = prices.take w := by
      rw [List.dropLast_eq_take]
      simp only [hlen1, Nat.add_sub_cancel]
      rw [List.take_take]
      congr 1
      omega
    have hlen2 : (prices.take w).length = w := by
      rw [List.length_take]
      omega
    have hprev : (prices.take w).getLast? = some rowP := by
      rw [List.getLast?_eq_getElem?]
      simp only [hlen2]
      rw [List.getElem?_take_of_lt (by omega)]
      exact hrowP
    have hgrow : (growthOf (prices.take (w + 1))).length = N := by
      simp only [growthOf, hdl, hlast, hprev, Option.getD_some]
      rw [List.length_zipWith, hrect _ hrowW_mem, hrect _ hrowP_mem]
      exact min_self N
    have herr : seriesMul init (growthOf (prices.take (w + 1))) =
        .error "Unable to coerce to Series" := by
      rw [seriesMul, if_neg]
      rw [hgrow]
      exact hmis
    simp only [runLoop, engineStep, Nat.sub_self] at hph ⊢
    rw [hph, herr]

/-- C9 witness: with a 3-element allocation against 2 assets, rolling window
12 completes with empty results while rolling window 1 aborts with the
length error inside period one. -/
theorem claim9_witness :
    runStrategy prices3 equalWeightPolicy [0, 0, 0] 100 12 = .ok [] ∧
    runStrategy prices3 equalWeightPolicy [0, 0, 0] 100 1 =
      .error "Unable to coerce to Series" :=
  ⟨(claim9_thm prices3 equalWeightPolicy [0, 0, 0] 100 12 2
    (by
      intro row hrow
      simp only [prices3, List.mem_cons, List.not_mem_nil, or_false] at hrow
      rcases hrow with h | h | h <;> subst h <;> rfl)
    (by norm_num) (by norm_num)).1 (by norm_num [pctChange, prices3]),
   (claim9_thm prices3 equalWeightPolicy [0, 0, 0] 100 1 2
    (by
      intro row hrow
      simp only [prices3, List.mem_cons, List.not_mem_nil, or_false] at hrow
      rcases hrow with h | h | h <;> subst h <;> rfl)
    (by norm_num) (by norm_num)).2 (by norm_num [pctChange, prices3])⟩

/-- C9 (counterexample): a mismatched `initial_allocation` (length 3 against
2 asset columns) raises NO error when the default rolling window exceeds the
available history — `run()` completes and returns empty result series, so no
configuration error is raised before any period executes. -/
theorem claim9_counterexample :
    runStrategy prices3 equalWeightPolicy [0, 0, 0] 100 12 = .ok [] ∧
    ([0, 0, 0] : List ℚ).length ≠ ([100, 50] : List ℚ).length := by
  constructor
  · norm_num [runStrategy, pctChange, prices3, runLoop]
  · norm_num

/-- Summing the post-fee value vector subtracts the flat fee once per asset
with a strictly positive (truncated) allocation. -/
theorem sum_zipWith_fee (V A : List ℤ) (h : V.length = A.length) :
    (List.zipWith (fun (v a : ℤ) => (v : ℚ) - tradeFee * (if 0 < a then 1 else 0)) V A).sum
      = (V.map (fun (z : ℤ) => (z : ℚ))).sum
        - tradeFee * (A.countP (fun a => decide (0 < a)) : ℕ) := by
  induction V generalizing A with
  | nil =>
    cases A with
    | nil => simp
    | cons a as => simp at h
  | cons v vs ih =>
    cases A with
    | nil => simp at h
    | cons a as =>
      simp only [List.zipWith_cons_cons, List.sum_cons, List.map_cons, List.countP_cons,
        decide_eq_true_eq]
      rw [ih as (by simpa using h)]
      by_cases ha : 0 < a
      · rw [if_pos ha, if_pos ha]
        push_cast
        ring
      · rw [if_neg ha, if_neg ha]
        push_cast
        ring

/-- A successful engine step records as total exactly the sum of its post-fee
value vector. -/
theorem engineStep_total (prices returns : Mat) (pol : Policy) (cash : ℚ)
    (w : ℕ) (curr : List ℚ) (idx : ℕ) (r : PeriodRecord)
    (hok : engineStep prices returns pol cash w curr idx = .ok r) :
    r.total = r.vals.sum := by
  simp only [engineStep] at hok
  split at hok
  · cases hok
  · cases hok
    rfl

/-- Every record of a successful loop satisfies the total-equals-sum
conservation. -/
theorem runLoop_total (prices returns : Mat) (pol : Policy) (cash : ℚ) (w : ℕ) :
    ∀ (idxs : List ℕ) (curr : List ℚ) (recs : List PeriodRecord),
      runLoop prices returns pol cash w curr idxs = .ok recs →
      ∀ r ∈ recs, r.total = r.vals.sum := by
  intro idxs
  induction idxs with
  | nil =>
    intro curr recs h
    simp only [runLoop] at h
    cases h
    simp
  | cons i rest ih =>
    intro curr recs h
    simp only [runLoop] at h
    split at h
    · cases h
    · next r0 heq0 =>
      split at h
      · cases h
      · next rs heq =>
        cases h
        intro r hr
        rcases List.mem_cons.mp hr with hr0 | hrs
        · subst hr0
          exact engineStep_total _ _ _ _ _ _ _ _ heq0
        · exact ih _ _ heq r hrs

/-- C2 (amended): the recorded total equals the sum of the post-fee asset
vector at every period (first conjunct); and the conservation against the
aged portfolio only holds AFTER integer truncation: the total equals the sum
of the truncated policy portfolio (`int(aged + alloc)` componentwise) minus
the fee times the number of assets whose truncated recorded allocation is
strictly positive (second conjunct).  The claim's exact form
`total = sum(aged) + sum(alloc) - fee_count*1.75` fails — see the
counterexample. -/
theorem claim2_thm :
    (∀ (prices : Mat) (pol : Policy) (init : List ℚ) (cash : ℚ) (w : ℕ)
      (recs : List PeriodRecord),
      runStrategy prices pol init cash w = .ok recs →
      ∀ r ∈ recs, r.total = r.vals.sum) ∧
    (∀ (prices returns : Mat) (pol : Policy) (cash : ℚ) (w : ℕ)
      (curr : List ℚ) (idx : ℕ) (r : PeriodRecord) (aged : List ℚ),
      engineStep prices returns pol cash w curr idx = .ok r →
      seriesMul curr (growthOf (sliceWindow prices (idx - w) (idx + 1))) = .ok aged →
      (pol aged cash (sliceWindow prices (idx - w) (idx + 1))
          (sliceWindow returns (idx - w) (idx + 1))).portfolio.length =
        (pol aged cash (sliceWindow prices (idx - w) (idx + 1))
          (sliceWindow returns (idx - w) (idx + 1))).alloc.length →
      r.total =
        ((pol aged cash (sliceWindow prices (idx - w) (idx + 1))
            (sliceWindow returns (idx - w) (idx + 1))).portfolio.map
              (fun q => ((npIntCast q : ℤ) : ℚ))).sum
          - tradeFee * (((pol aged cash (sliceWindow prices (idx - w) (idx + 1))
              (sliceWindow returns (idx - w) (idx + 1))).alloc.map npIntCast).countP
                (fun a => decide (0 < a)) : ℕ)) := by
  constructor
  · intro prices pol init cash w recs hok
    simp only [runStrategy] at hok
    exact runLoop_total _ _ _ _ _ _ _ _ hok
  · intro prices returns pol cash w curr idx r aged hok haged hlen
    simp only [engineStep] at hok
    split at hok
    · cases hok
    · next aged2 heq =>
      have ha : aged2 = aged := by
        have := heq.symm.trans haged
        exact (Except.ok.inj this)
      subst ha
      cases hok
      show (List.zipWith _ _ _).sum = _
      rw [sum_zipWith_fee _ _ (by simp [hlen])]
      simp only [List.map_map]
      rfl

/-- C2 witness: both conservation forms evaluated on the concrete scenario
period. -/
theorem claim2_witness :
    (⟨[50, 50], [193/4, 193/4], [some (1/2), some (1/2)], 193/2⟩ : PeriodRecord).total =
      (⟨[50, 50], [193/4, 193/4], [some (1/2), some (1/2)], 193/2⟩ : PeriodRecord).vals.sum ∧
    (⟨[50, 50], [193/4, 193/4], [some (1/2), some (1/2)], 193/2⟩ : PeriodRecord).total =
      ((equalWeightPolicy [0, 0] 100 (sliceWindow prices3 (1 - 1) (1 + 1))
          (sliceWindow (pctChange prices3) (1 - 1) (1 + 1))).portfolio.map
            (fun q => ((npIntCast q : ℤ) : ℚ))).sum
        - tradeFee * (((equalWeightPolicy [0, 0] 100 (sliceWindow prices3 (1 - 1) (1 + 1))
            (sliceWindow (pctChange prices3) (1 - 1) (1 + 1))).alloc.map npIntCast).countP
              (fun a => decide (0 < a)) : ℕ) :=
  ⟨claim2_thm.1 prices3 equalWeightPolicy [0, 0] 100 1 [(⟨[50, 50], [193/4, 193/4], [some (1/2), some (1/2)], 193/2⟩ : PeriodRecord)]
    (by norm_num [runStrategy, pctChange, prices3, runLoop, engineStep, sliceWindow,
      growthOf, seriesMul, equalWeightPolicy, equalWeightOptimize, npIntCast_eq,
      round3, round_eq, tradeFee, List.range', List.replicate])
    _ (by norm_num),
   claim2_thm.2 prices3 (pctChange prices3) equalWeightPolicy 100 1 [0, 0] 1 _ [0, 0]
    (by norm_num [pctChange, prices3, engineStep, sliceWindow, growthOf, seriesMul,
      equalWeightPolicy, equalWeightOptimize, npIntCast_eq, round3, round_eq,
      tradeFee, List.replicate])
    (by norm_num [prices3, sliceWindow, growthOf, seriesMul])
    (by norm_num [equalWeightPolicy, equalWeightOptimize, List.replicate])⟩

/-- C2 (counterexample): on the 4-row price table the second period has aged
portfolio `[53.075, 43.8636...]` and recorded allocations `[50, 50]`, yet the
recorded total is `192.5`, not
`sum(aged) + sum(alloc) - 2*1.75 = 193.4386...` — the exact conservation of
the claim fails because the engine truncates the portfolio to whole euros
before subtracting fees. -/
theorem claim2_counterexample :
    runStrategy prices4 equalWeightPolicy [0, 0] 100 1 =
      .ok [⟨[50, 50], [193/4, 193/4], [some (1/2), some (1/2)], 193/2⟩,
           ⟨[50, 50], [405/4, 365/4], [some (523/1000), some (477/1000)], 385/2⟩] ∧
    seriesMul [193/4, 193/4] (growthOf (sliceWindow prices4 (2 - 1) (2 + 1))) =
      .ok [2123/40, 965/22] ∧
    (385/2 : ℚ) ≠ (2123/40 + 965/22) + (50 + 50) - tradeFee * 2 := by
  refine ⟨?_, ?_, ?_⟩
  · norm_num [runStrategy, pctChange, prices4, runLoop, engineStep, sliceWindow,
      growthOf, seriesMul, equalWeightPolicy, equalWeightOptimize, npIntCast_eq,
      round3, round_eq, tradeFee, List.range', List.replicate]
  · norm_num [prices4, sliceWindow, growthOf, seriesMul]
  · norm_num [tradeFee]

/-- Zipping consumes only as many left elements as the right list has. -/
theorem zipWith_take_succ {α β γ : Type} (f : α → β → γ) :
    ∀ (A : List α) (B : List β) (k : ℕ), B.length ≤ k →
      List.zipWith f (A.take (k + 1)) B = List.zipWith f (A.take k) B := by
  intro A
  induction A with
  | nil => intro B k _; simp
  | cons a as ih =>
    intro B k hk
    cases B with
    | nil => simp
    | cons b bs =>
      obtain ⟨k', rfl⟩ : ∃ k', k = k' + 1 := by
        cases k with
        | zero => simp at hk
        | succ k' => exact ⟨k', rfl⟩
      simp only [List.take_succ_cons, List.zipWith_cons_cons]
      rw [ih bs k' (by simpa using hk)]

/-- A prefix of the return table is the return table of a one-longer prefix
of the price table: the returns at rows `< k` only read price rows `≤ k`. -/
theorem pctChange_take (P : Mat) (k : ℕ) :
    pctChange (P.take (k + 1)) = (pctChange P).take k := by
  unfold pctChange
  rw [List.take_zipWith, List.drop_take]
  simp only [Nat.add_sub_cancel]
  exact zipWith_take_succ _ _ _ _ (by simp)

/-- Slicing below `m` ignores everything beyond the first `m` rows. -/
theorem sliceWindow_take (M : Mat) (a b m : ℕ) (h : b ≤ m) :
    sliceWindow (M.take m) a b = sliceWindow M a b := by
  unfold sliceWindow
  rw [List.drop_take, List.take_take]
  congr 1
  omega

/-- Taking a prefix of a unit-step range shortens the range. -/
theorem range'_take : ∀ (c s m : ℕ), (List.range' s c).take m = List.range' s (min m c) := by
  intro c
  induction c with
  | zero => intro s m; simp
  | succ c' ih =>
    intro s m
    cases m with
    | zero => simp
    | succ m' =>
      rw [List.range'_succ, List.take_succ_cons, ih (s + 1) m']
      have : min (m' + 1) (c' + 1) = min m' c' + 1 := by omega
      rw [this, List.range'_succ]

/-- An engine step at loop index `idx ≤ j` reads only the first `j + 2` price
rows: both tables passed to the policy and the growth factors are unchanged
by any modification of later rows. -/
theorem engineStep_congr (P1 P2 : Mat) (pol : Policy) (cash : ℚ) (w j idx : ℕ)
    (curr : List ℚ) (htake : P1.take (j + 2) = P2.take (j + 2)) (hidx : idx ≤ j) :
    engineStep P1 (pctChange P1) pol cash w curr idx =
      engineStep P2 (pctChange P2) pol cash w curr idx := by
  have hp : sliceWindow P1 (idx - w) (idx + 1) = sliceWindow P2 (idx - w) (idx + 1) := by
    rw [← sliceWindow_take P1 (idx - w) (idx + 1) (j + 2) (by omega), htake,
      sliceWindow_take P2 (idx - w) (idx + 1) (j + 2) (by omega)]
  have hr : sliceWindow (pctChange P1) (idx - w) (idx + 1) =
      sliceWindow (pctChange P2) (idx - w) (idx + 1) := by
    rw [← sliceWindow_take (pctChange P1) (idx - w) (idx + 1) (j + 1) (by omega),
      ← sliceWindow_take (pctChange P2) (idx - w) (idx + 1) (j + 1) (by omega),
      ← pctChange_take P1 (j + 1), ← pctChange_take P2 (j + 1), htake]
  simp only [engineStep, hp, hr]

/-- Record prefixes of two successful loops over the same index list agree as
long as the processed indices stay at or below `j` and the price tables agree
on their first `j + 2` rows. -/
theorem runLoop_take_congr (P1 P2 : Mat) (pol : Policy) (cash : ℚ) (w j : ℕ)
    (htake : P1.take (j + 2) = P2.take (j + 2)) :
    ∀ (idxs : List ℕ) (curr : List ℚ) (m : ℕ) (recs1 recs2 : List PeriodRecord),
      (∀ i ∈ idxs.take m, i ≤ j) →
      runLoop P1 (pctChange P1) pol cash w curr idxs = .ok recs1 →
      runLoop P2 (pctChange P2) pol cash w curr idxs = .ok recs2 →
      recs1.take m = recs2.take m := by
  intro idxs
  induction idxs with
  | nil =>
    intro curr m recs1 recs2 _ h1 h2
    simp only [runLoop] at h1 h2
    cases h1
    cases h2
    rfl
  | cons i rest ih =>
    intro curr m recs1 recs2 hm h1 h2
    cases m with
    | zero => simp
    | succ m' =>
      rw [List.take_succ_cons] at hm
      have hi : i ≤ j := hm i (List.mem_cons_self i _)
      have hstep := engineStep_congr P1 P2 pol cash w j i curr htake hi
      simp only [runLoop] at h1 h2
      split at h1
      · cases h1
      · next r heq1 =>
        split at h1
        · cases h1
        · next rs1 hrest1 =>
          cases h1
          rw [← hstep, heq1] at h2
          dsimp only at h2
          split at h2
          · cases h2
          · next rs2 hrest2 =>
            cases h2
            rw [List.take_succ_cons, List.take_succ_cons,
              ih r.vals m' rs1 rs2 (fun x hx => hm x (List.mem_cons_of_mem _ hx))
                hrest1 hrest2]

/-- C4: no look-ahead.  First conjunct: the history window at loop index
`idx` is carved out of the first `idx + 1` rows only, for any table the
engine slices (prices and returns alike).  Second conjunct (the claim's
equivalent formulation): if two price tables of equal length agree on all
rows up to and including row `j + 1` — i.e. on every date up to and
including the date labelling loop index `j` — then the two runs produce
identical Period Records at every loop index up to and including `j`,
whatever the strategy; changing data strictly after a period cannot change
that period's record or any earlier one. -/
theorem claim4_thm :
    (∀ (M : Mat) (w idx : ℕ),
      sliceWindow M (idx - w) (idx + 1) = (M.take (idx + 1)).drop (idx - w)) ∧
    (∀ (P1 P2 : Mat) (pol : Policy) (init : List ℚ) (cash : ℚ) (w j : ℕ)
      (recs1 recs2 : List PeriodRecord),
      P1.length = P2.length →
      P1.take (j + 2) = P2.take (j + 2) →
      runStrategy P1 pol init cash w = .ok recs1 →
      runStrategy P2 pol init cash w = .ok recs2 →
      recs1.take (j + 1 - w) = recs2.take (j + 1 - w)) := by
  constructor
  · intro M w idx
    rw [sliceWindow, List.drop_take]
  · intro P1 P2 pol init cash w j recs1 recs2 hlen htake h1 h2
    simp only [runStrategy] at h1 h2
    have hn : (pctChange P1).length = (pctChange P2).length := by
      rw [pctChange_length, pctChange_length, hlen]
    rw [hn] at h1
    refine runLoop_take_congr P1 P2 pol cash w j htake _ init (j + 1 - w) recs1 recs2
      ?_ h1 h2
    intro i hi
    rw [range'_take] at hi
    have := List.mem_range'_1.mp hi
    omega

/-- C4 witness: the no-look-ahead facts at the concrete scenario — `prices4`
and a table tampered in the last row (a date after period 1) yield the same
period-1 record prefix. -/
theorem claim4_witness :
    (sliceWindow prices3 (1 - 1) (1 + 1) = (prices3.take (1 + 1)).drop (1 - 1)) ∧
    ([(⟨[50, 50], [193/4, 193/4], [some (1/2), some (1/2)], 193/2⟩ : PeriodRecord),
      ⟨[50, 50], [405/4, 365/4], [some (523/1000), some (477/1000)], 385/2⟩].take (1 + 1 - 1) =
     [(⟨[50, 50], [193/4, 193/4], [some (1/2), some (1/2)], 193/2⟩ : PeriodRecord),
      ⟨[50, 50], [405/4, 365/4], [some (523/1000), some (477/1000)], 385/2⟩].take (1 + 1 - 1)) :=
  ⟨claim4_thm.1 prices3 1 1,
   claim4_thm.2 prices4 [[100, 50], [110, 55], [121, 50], [999, 999]]
    equalWeightPolicy [0, 0] 100 1 1 _ _
    (by norm_num [prices4]) (by norm_num [prices4])
    (by norm_num [runStrategy, pctChange, prices4, runLoop, engineStep, sliceWindow,
      growthOf, seriesMul, equalWeightPolicy, equalWeightOptimize, npIntCast_eq,
      round3, round_eq, tradeFee, List.range', List.replicate])
    (by norm_num [runStrategy, pctChange, runLoop, engineStep, sliceWindow,
      growthOf, seriesMul, equalWeightPolicy, equalWeightOptimize, npIntCast_eq,
      round3, round_eq, tradeFee, List.range', List.replicate])⟩

/-- Distributing a sum over a componentwise division. -/
theorem sum_map_div (l : List ℚ) (c : ℚ) :
    (l.map (fun v => v / c)).sum = l.sum / c := by
  induction l with
  | nil => simp
  | cons x xs ih => simp [ih, add_div]

/-- One 3-decimal rounding moves a value by at most `1/2000`. -/
theorem round3_close (q : ℚ) : |round3 q - q| ≤ 1/2000 := by
  unfold round3
  have h := abs_sub_round (q * 1000)
  rw [abs_sub_comm] at h
  have h2 : ((round (q * 1000) : ℤ) : ℚ) / 1000 - q =
      (((round (q * 1000) : ℤ) : ℚ) - q * 1000) / 1000 := by ring
  rw [h2, abs_div, abs_of_pos (by norm_num : (0:ℚ) < 1000)]
  linarith

/-- Rounding every summand to 3 decimals moves the sum by at most
`length / 2000`. -/
theorem sum_map_round3_close (l : List ℚ) :
    |(l.map round3).sum - l.sum| ≤ (l.length : ℚ) * (1/2000) := by
  induction l with
  | nil => simp
  | cons x xs ih =>
    simp only [List.map_cons, List.sum_cons, List.length_cons]
    have h1 := round3_close x
    have h3 : |round3 x + (List.map round3 xs).sum - (x + xs.sum)|
        ≤ |round3 x - x| + |(List.map round3 xs).sum - xs.sum| := by
      have := abs_add (round3 x - x) ((List.map round3 xs).sum - xs.sum)
      calc |round3 x + (List.map round3 xs).sum - (x + xs.sum)|
          = |(round3 x - x) + ((List.map round3 xs).sum - xs.sum)| := by ring_nf
        _ ≤ _ := this
    push_cast
    push_cast at ih
    linarith

/-- A constant-`none` map is a replicate. -/
theorem map_const_none (l : List ℚ) :
    (l.map fun _ => (none : OQ)) = List.replicate l.length none := by
  induction l with
  | nil => rfl
  | cons y ys ih => simp [ih, List.replicate_succ]

/-- The weight branch shared by the guarded strategies yields only finite
weights. -/
theorem va_weights_all_some (np : List ℚ) :
    ∀ x ∈ (if 0 < np.sum then np.map (fun v => some (v / np.sum))
      else List.replicate np.length (some (0:ℚ))), ∃ q, x = some q := by
  intro x hx
  split at hx
  · rcases List.mem_map.mp hx with ⟨v, _, rfl⟩
    exact ⟨_, rfl⟩
  · exact ⟨0, List.eq_of_mem_replicate hx⟩

/-- With a positive total, the guarded weights sum to exactly one. -/
theorem va_weights_sum_one (np : List ℚ) (h : 0 < np.sum) :
    ((if 0 < np.sum then np.map (fun v => some (v / np.sum))
      else List.replicate np.length (some (0:ℚ))).filterMap id).sum = 1 := by
  rw [if_pos h, List.filterMap_map]
  have hcomp : (id ∘ fun (v : ℚ) => some (v / np.sum)) =
      Option.some ∘ (fun (v : ℚ) => v / np.sum) := rfl
  rw [hcomp, List.filterMap_eq_map, sum_map_div, div_self (ne_of_gt h)]

/-- With a zero total, the guarded weights are all zero. -/
theorem va_weights_zero (np : List ℚ) (h : np.sum = 0) :
    (if 0 < np.sum then np.map (fun v => some (v / np.sum))
      else List.replicate np.length (some (0:ℚ))) =
      List.replicate np.length (some 0) := by
  rw [if_neg (by rw [h]; exact lt_irrefl 0)]

/-- The rounded equal-weight vector sums to within `length / 2000` of one. -/
theorem ew_weights_close (np : List ℚ) (h : np.sum ≠ 0) :
    |((np.map (fun v => if np.sum = 0 then none
        else some (round3 (v / np.sum)))).filterMap id).sum - 1|
      ≤ (np.length : ℚ) * (1/2000) := by
  simp only [if_neg h]
  rw [List.filterMap_map]
  have hcomp : (id ∘ fun (v : ℚ) => some (round3 (v / np.sum))) =
      Option.some ∘ (fun (v : ℚ) => round3 (v / np.sum)) := rfl
  rw [hcomp, List.filterMap_eq_map]
  have key := sum_map_round3_close (np.map (fun v => v / np.sum))
  rw [List.map_map, sum_map_div, div_self h, List.length_map] at key
  simpa [Function.comp] using key

/-- With a zero total, every rounded equal weight is non-finite. -/
theorem ew_weights_nan (np : List ℚ) (h : np.sum = 0) :
    np.map (fun v => if np.sum = 0 then none else some (round3 (v / np.sum))) =
      List.replicate np.length (none : OQ) := by
  simp only [if_pos h]
  exact map_const_none np

/-- C10 (amended): `ValueAveragingStrategy` fulfils the weight contract
exactly — every weight is a finite number, the weights sum to exactly 1 when
the resulting portfolio value is positive and are all zero when it is zero.
`EqualWeightStrategy` does not: its `.round(3)` makes the weight sum only
within `N/2000` of 1 (0.999 for three assets — see the counterexample), and
a zero portfolio total makes every weight non-finite (`0/0 = NaN`). -/
theorem claim10_thm :
    (∀ (nT : ℕ) (rate : ℚ) (t : ℕ) (current : List ℚ) (cash : ℚ),
      (∀ x ∈ (valueAveragingOptimize nT rate t current cash).weights, ∃ q, x = some q) ∧
      (0 < (valueAveragingOptimize nT rate t current cash).portfolio.sum →
        ((valueAveragingOptimize nT rate t current cash).weights.filterMap id).sum = 1) ∧
      ((valueAveragingOptimize nT rate t current cash).portfolio.sum = 0 →
        (valueAveragingOptimize nT rate t current cash).weights =
          List.replicate (valueAveragingOptimize nT rate t current cash).portfolio.length
            (some 0))) ∧
    (∀ (current : List ℚ) (cash : ℚ),
      ((equalWeightOptimize current cash).portfolio.sum ≠ 0 →
        |((equalWeightOptimize current cash).weights.filterMap id).sum - 1|
          ≤ (current.length : ℚ) * (1/2000)) ∧
      ((equalWeightOptimize current cash).portfolio.sum = 0 →
        (equalWeightOptimize current cash).weights =
          List.replicate current.length none)) := by
  constructor
  · intro nT rate t current cash
    simp only [valueAveragingOptimize]
    exact ⟨va_weights_all_some _, va_weights_sum_one _, va_weights_zero _⟩
  · intro current cash
    simp only [equalWeightOptimize]
    have hlen : (List.zipWith (· + ·) current
        (List.replicate current.length (cash / (current.length : ℚ)))).length =
        current.length := by
      simp
    constructor
    · intro hs
      have key := ew_weights_close _ hs
      rwa [hlen] at key
    · intro hs
      rw [ew_weights_nan _ hs, hlen]

/-- C10 witness: the exact weight-sum of ValueAveraging and the rounded
weight-sum bound of EqualWeight at concrete inputs. -/
theorem claim10_witness :
    (((valueAveragingOptimize 2 (1/50) 1 [10, 10] 100).weights.filterMap id).sum = 1) ∧
    |((equalWeightOptimize [0, 0, 0] 100).weights.filterMap id).sum - 1|
      ≤ ((([0, 0, 0] : List ℚ).length : ℚ) * (1/2000)) :=
  ⟨(claim10_thm.1 2 (1/50) 1 [10, 10] 100).2.1
    (by norm_num [valueAveragingOptimize]),
   (claim10_thm.2 [0, 0, 0] 100).1
    (by norm_num [equalWeightOptimize, List.replicate])⟩

/-- C10 (counterexample): for three assets and 100 EUR of new capital,
`EqualWeightStrategy` reports weights `[0.333, 0.333, 0.333]` — their sum is
0.999, not 1, although the portfolio value is positive; and with zero new
capital on an empty portfolio its weights are all NaN (`0/0`). -/
theorem claim10_counterexample :
    (equalWeightOptimize [0, 0, 0] 100).weights =
      [some (333/1000), some (333/1000), some (333/1000)] ∧
    ((equalWeightOptimize [0, 0, 0] 100).weights.filterMap id).sum ≠ 1 ∧
    (equalWeightOptimize [0, 0, 0] 0).weights = [none, none, none] := by
  refine ⟨?_, ?_, ?_⟩
  · norm_num [equalWeightOptimize, round3, round_eq, List.replicate]
  · norm_num [equalWeightOptimize, round3, round_eq, List.replicate,
      List.filterMap_cons, List.filterMap_nil]
  · norm_num [equalWeightOptimize, List.replicate]

/-- Filtering the NaN values out of an all-finite series is the identity. -/
theorem filterMap_id_map_some (l : List ℚ) : (l.map some).filterMap id = l := by
  induction l with
  | nil => rfl
  | cons x xs ih => simp [List.filterMap_cons, ih]

/-- The NaN-skipping sum of an all-finite series is the plain sum. -/
theorem skipnaSum_map_some (l : List ℚ) : skipnaSum (l.map some) = l.sum := by
  rw [skipnaSum, filterMap_id_map_some]

/-- The NaN-skipping sum of an all-NaN series is zero. -/
theorem skipnaSum_replicate_none (n : ℕ) :
    skipnaSum (List.replicate n (none : OQ)) = 0 := by
  induction n with
  | zero => rfl
  | succ k ih =>
    rw [List.replicate_succ]
    show (List.filterMap id (none :: List.replicate k none)).sum = 0
    simp only [List.filterMap_cons]
    exact ih

/-- The NaN-propagating numpy sum of an all-finite array is the plain sum. -/
theorem npSum_map_some (l : List ℚ) : npSum (l.map some) = some l.sum := by
  induction l with
  | nil => rfl
  | cons x xs ih =>
    show oadd (some x) (npSum (xs.map some)) = _
    rw [ih]
    simp [oadd]

/-- A series whose members are all finite is the `some`-image of a rational
list with the same property. -/
theorem all_some_decomp {p : ℚ → Prop} :
    ∀ (L : List OQ), (∀ y ∈ L, ∃ q, y = some q ∧ p q) →
      ∃ Lq : List ℚ, L = Lq.map some ∧ ∀ q ∈ Lq, p q := by
  intro L
  induction L with
  | nil => exact fun _ => ⟨[], rfl, by simp⟩
  | cons a as ih =>
    intro h
    obtain ⟨q, rfl, hq⟩ := h a (List.mem_cons_self a as)
    obtain ⟨Lq, rfl, hLq⟩ := ih (fun y hy => h y (List.mem_cons_of_mem _ hy))
    refine ⟨q :: Lq, rfl, ?_⟩
    intro x hx
    rcases List.mem_cons.mp hx with rfl | hx
    · exact hq
    · exact hLq x hx

/-- Members of a zip come from members of the two lists. -/
theorem mem_zipWith {α β γ : Type} (f : α → β → γ) :
    ∀ (A : List α) (B : List β) (x : γ), x ∈ List.zipWith f A B →
      ∃ a b, a ∈ A ∧ b ∈ B ∧ x = f a b := by
  intro A
  induction A with
  | nil => intro B x hx; simp at hx
  | cons a as ih =>
    intro B x hx
    cases B with
    | nil => simp at hx
    | cons b bs =>
      simp only [List.zipWith_cons_cons, List.mem_cons] at hx
      rcases hx with rfl | hx
      · exact ⟨a, b, List.mem_cons_self _ _, List.mem_cons_self _ _, rfl⟩
      · obtain ⟨a2, b2, ha, hb, rfl⟩ := ih bs x hx
        exact ⟨a2, b2, List.mem_cons_of_mem _ ha, List.mem_cons_of_mem _ hb, rfl⟩

/-- Summing a proportionally rescaled list rescales the sum. -/
theorem sum_map_div_mul (l : List ℚ) (s c : ℚ) :
    (l.map (fun a => a / s * c)).sum = l.sum / s * c := by
  induction l with
  | nil => simp
  | cons x xs ih =>
    simp only [List.map_cons, List.sum_cons, ih]
    ring

/-- A constant map is a replicate. -/
theorem map_const_replicate {α β : Type} (l : List α) (b : β) :
    (l.map fun _ => b) = List.replicate l.length b := by
  induction l with
  | nil => rfl
  | cons x xs ih => simp [ih, List.replicate_succ]

/-- Zipping a replicate on the left is a map. -/
theorem zipWith_replicate_left_eq {α β γ : Type} (f : α → β → γ) (a : α) :
    ∀ (l : List β) (n : ℕ), l.length = n →
      List.zipWith f (List.replicate n a) l = l.map (f a) := by
  intro l
  induction l with
  | nil => intro n h; subst h; rfl
  | cons x xs ih =>
    intro n h
    subst h
    rw [List.length_cons, List.replicate_succ, List.zipWith_cons_cons, List.map_cons,
      ih xs.length rfl]

/-- Zipping a replicate on the right is a map. -/
theorem zipWith_replicate_right_eq {α β γ : Type} (f : α → β → γ) (b : β) :
    ∀ (l : List α) (n : ℕ), l.length = n →
      List.zipWith f l (List.replicate n b) = l.map (fun x => f x b) := by
  intro l
  induction l with
  | nil => intro n h; subst h; rfl
  | cons x xs ih =>
    intro n h
    subst h
    rw [List.length_cons, List.replicate_succ, List.zipWith_cons_cons, List.map_cons,
      ih xs.length rfl]

/-- Zipping two equal-length replicates is a replicate. -/
theorem zipWith_replicate_both {α β γ : Type} (f : α → β → γ) (a : α) (b : β) :
    ∀ n, List.zipWith f (List.replicate n a) (List.replicate n b) =
      List.replicate n (f a b) := by
  intro n
  induction n with
  | zero => rfl
  | succ k ih => simp [List.replicate_succ, ih]

/-- The proportional rescale step, on an all-finite non-negative allocation:
under either pandas or numpy sum semantics it stays all-finite, non-negative,
and its total never exceeds the injected capital. -/
theorem rescale_some (aq : List ℚ) (cash : ℚ) (hpos : ∀ a ∈ aq, 0 ≤ a)
    (hc : 0 ≤ cash) :
    ∃ bq : List ℚ,
      rescaleSkipna (aq.map some) cash = bq.map some ∧
      rescaleNp (aq.map some) cash = bq.map some ∧
      (∀ b ∈ bq, 0 ≤ b) ∧ bq.sum ≤ cash := by
  by_cases hgt : cash < aq.sum
  · have hS0 : 0 < aq.sum := lt_of_le_of_lt hc hgt
    have hS : aq.sum ≠ 0 := ne_of_gt hS0
    refine ⟨aq.map (fun a => a / aq.sum * cash), ?_, ?_, ?_, ?_⟩
    · rw [rescaleSkipna, skipnaSum_map_some, if_pos hgt, List.map_map, List.map_map]
      refine List.map_congr_left ?_
      intro a _
      simp [Function.comp, odiv, omul, hS]
    · rw [rescaleNp, npSum_map_some,
        if_pos (by simp only [ogtB, decide_eq_true_eq]; exact hgt),
        List.map_map, List.map_map]
      refine List.map_congr_left ?_
      intro a _
      simp [Function.comp, odiv, omul, hS]
    · intro b hb
      obtain ⟨a, ha, rfl⟩ := List.mem_map.mp hb
      exact mul_nonneg (div_nonneg (hpos a ha) (le_of_lt hS0)) hc
    · rw [sum_map_div_mul, div_self hS, one_mul]
  · push_neg at hgt
    refine ⟨aq, ?_, ?_, hpos, hgt⟩
    · rw [rescaleSkipna, skipnaSum_map_some, if_neg (not_lt.mpr hgt)]
    · rw [rescaleNp, npSum_map_some,
        if_neg (by simp only [ogtB, decide_eq_true_eq]; exact not_lt.mpr hgt)]

/-- The buy-only step over finite targets is the finite positive-part zip. -/
theorem buyOnlyAlloc_some (tq current : List ℚ) :
    buyOnlyAlloc (tq.map some) current =
      (List.zipWith (fun (t c : ℚ) => max 0 (t - c)) tq current).map some := by
  rw [buyOnlyAlloc, List.zipWith_map_left, List.map_zipWith]
  rfl

/-- Positive parts are non-negative. -/
theorem zipWith_max0_nonneg (tq current : List ℚ) :
    ∀ a ∈ List.zipWith (fun (t c : ℚ) => max 0 (t - c)) tq current, 0 ≤ a := by
  intro a ha
  obtain ⟨t, c, _, _, rfl⟩ := mem_zipWith _ _ _ _ ha
  exact le_max_left 0 _

/-- Clipping a finite entry takes its positive part. -/
theorem clipNeg_some (v : ℚ) : clipNeg (some v) = some (if v < 0 then 0 else v) := by
  rw [show clipNeg (some v) = if v < 0 then some 0 else some v from rfl]
  split <;> rfl

/-- Column means of an empty window are all NaN. -/
theorem colMeans_nil (n : ℕ) : colMeans n [] = List.replicate n none := by
  have h : colMeans n [] = (List.range n).map (fun _ => (none : OQ)) := rfl
  rw [h, map_const_replicate, List.length_range]

/-- Column sample variances need at least two rows; otherwise all NaN. -/
theorem colVars_le_one (n : ℕ) (m : Mat) (h : m.length ≤ 1) :
    colVars n m = List.replicate n none := by
  unfold colVars
  have h2 : ((List.range n).map fun j =>
      if m.length ≤ 1 then (none : OQ)
      else
        some (((m.map (fun r => r.getD j 0)).map
          (fun x => (x - (m.map (fun r => r.getD j 0)).sum /
            ((m.map (fun r => r.getD j 0)).length : ℚ)) ^ 2)).sum /
              (((m.map (fun r => r.getD j 0)).length : ℚ) - 1)))
      = (List.range n).map (fun _ => (none : OQ)) :=
    List.map_congr_left (fun j _ => if_pos h)
  rw [h2, map_const_replicate, List.length_range]

/-- Column means of a non-empty window are all finite. -/
theorem colMeans_ne_nil (n : ℕ) (m : Mat) (h : ¬ m.length = 0) :
    colMeans n m = ((List.range n).map
      (fun j => (m.map (fun r => r.getD j 0)).sum / (m.length : ℚ))).map some := by
  unfold colMeans
  rw [List.map_map]
  exact List.map_congr_left (fun j _ => by rw [if_neg h]; rfl)

/-- The momentum signal is either all-NaN (empty lookback window) or an
all-finite, componentwise non-negative series. -/
theorem momentumSignal_cases (n lookback : ℕ) (θ : ℚ) (rh : Mat) :
    momentumSignal n lookback θ rh = List.replicate n none ∨
    ∃ sq : List ℚ, momentumSignal n lookback θ rh = sq.map some ∧ ∀ q ∈ sq, 0 ≤ q := by
  simp only [momentumSignal]
  by_cases h0 : (if lookback = 0 then rh else rh.drop (rh.length - lookback)).length = 0
  · left
    rw [List.length_eq_zero] at h0
    rw [h0, colMeans_nil, colVars_le_one n [] (by simp), List.map_replicate,
      zipWith_replicate_both]
    rfl
  · right
    rw [colMeans_ne_nil n _ h0]
    have h2 : ∀ (M : List ℚ), List.map clipNeg (M.map some) =
        (M.map (fun v => if v < 0 then 0 else v)).map some := by
      intro M
      rw [List.map_map, List.map_map]
      refine List.map_congr_left ?_
      intro v _
      exact clipNeg_some v
    rw [h2, List.zipWith_map_left]
    have h3 : (fun (a : ℚ) (b : OQ) =>
        if momVolExceeds b θ = true then some (0:ℚ) else some a)
        = fun a b => some (if momVolExceeds b θ = true then 0 else a) := by
      funext a b
      split <;> rfl
    rw [h3]
    refine ⟨_, (List.map_zipWith some
      (fun (a : ℚ) (b : OQ) => if momVolExceeds b θ = true then 0 else a) _ _).symm, ?_⟩
    · intro q hq
      obtain ⟨a, b, ha, _, rfl⟩ := mem_zipWith _ _ _ _ hq
      split
      · exact le_refl 0
      · obtain ⟨v, _, rfl⟩ := List.mem_map.mp ha
        split
        · exact le_refl 0
        · next hv => exact not_lt.mp hv

/-- The momentum weight vector is always all-finite and componentwise
non-negative (negative momentum is clipped, flat signals fall back to equal
weights, the diversification blend mixes two non-negative vectors). -/
theorem momentumWeights_some (n lookback : ℕ) (divers : Bool) (θ : ℚ) (rh : Mat) :
    ∃ Wq : List ℚ, momentumWeights n lookback divers θ rh = Wq.map some ∧
      ∀ q ∈ Wq, 0 ≤ q := by
  simp only [momentumWeights]
  have hbase : ∃ Bq : List ℚ,
      (if skipnaSum (momentumSignal n lookback θ rh) = 0
        then (List.replicate n (some (1 / (n:ℚ))) : List OQ)
        else (momentumSignal n lookback θ rh).map
          (fun x => odiv x (some (skipnaSum (momentumSignal n lookback θ rh)))))
        = Bq.map some
      ∧ ∀ q ∈ Bq, 0 ≤ q := by
    by_cases hz : skipnaSum (momentumSignal n lookback θ rh) = 0
    · refine ⟨List.replicate n (1 / (n:ℚ)), ?_, ?_⟩
      · rw [if_pos hz, List.map_replicate]
      · intro q hq
        rw [List.eq_of_mem_replicate hq]
        exact div_nonneg zero_le_one (Nat.cast_nonneg n)
    · rcases momentumSignal_cases n lookback θ rh with hnone | ⟨sq, hsq, hsqpos⟩
      · exact absurd (by rw [hnone, skipnaSum_replicate_none]) hz
      · have hsum : skipnaSum (momentumSignal n lookback θ rh) = sq.sum := by
          rw [hsq, skipnaSum_map_some]
        have hS : sq.sum ≠ 0 := hsum ▸ hz
        have hSpos : 0 < sq.sum :=
          lt_of_le_of_ne (List.sum_nonneg hsqpos) (Ne.symm hS)
        refine ⟨sq.map (fun q => q / sq.sum), ?_, ?_⟩
        · rw [if_neg hz, hsum, hsq, List.map_map, List.map_map]
          refine List.map_congr_left ?_
          intro q _
          simp [Function.comp, odiv, hS]
        · intro q hq
          obtain ⟨v, hv, rfl⟩ := List.mem_map.mp hq
          exact div_nonneg (hsqpos v hv) (le_of_lt hSpos)
  obtain ⟨Bq, hBq, hBqpos⟩ := hbase
  cases divers with
  | false =>
    refine ⟨Bq, ?_, hBqpos⟩
    simpa using hBq
  | true =>
    refine ⟨List.zipWith (fun w e => 7/10 * w + 3/10 * e) Bq
      (List.replicate n (1/(n:ℚ))), ?_, ?_⟩
    · simp only [if_true]
      rw [hBq]
      have hrep : (List.replicate n (some (1/(n:ℚ))) : List OQ) =
          (List.replicate n (1/(n:ℚ))).map some := by
        rw [List.map_replicate]
      rw [hrep, List.zipWith_map_left, List.zipWith_map_right, List.map_zipWith]
      rfl
    · intro q hq
      obtain ⟨w, e, hw, he, rfl⟩ := mem_zipWith _ _ _ _ hq
      have he0 : e = 1/(n:ℚ) := List.eq_of_mem_replicate he
      have h1 : (0:ℚ) ≤ 7/10 * w := mul_nonneg (by norm_num) (hBqpos w hw)
      have h2 : (0:ℚ) ≤ 3/10 * e := by
        rw [he0]
        exact mul_nonneg (by norm_num) (div_nonneg zero_le_one (Nat.cast_nonneg n))
      linarith

/-- `MomentumStrategy`: the returned New Allocation is always all-finite,
componentwise non-negative, and totals at most the injected capital. -/
theorem momentum_alloc_spec (n lookback : ℕ) (divers : Bool) (θ : ℚ)
    (current : List ℚ) (cash : ℚ) (rh : Mat) (hc : 0 ≤ cash) :
    (∀ a ∈ (momentumOptimize n lookback divers θ current cash rh).alloc,
      ∃ q, a = some q ∧ 0 ≤ q) ∧
    skipnaSum (momentumOptimize n lookback divers θ current cash rh).alloc ≤ cash := by
  obtain ⟨Wq, hW, hWpos⟩ := momentumWeights_some n lookback divers θ rh
  simp only [momentumOptimize]
  rw [hW, List.map_map]
  have htar : Wq.map ((fun wv => omul wv (some (current.sum + cash))) ∘ some)
      = (Wq.map (fun w => w * (current.sum + cash))).map some := by
    rw [List.map_map]
    rfl
  rw [htar, buyOnlyAlloc_some]
  obtain ⟨bq, _, hnp, hbpos, hbsum⟩ := rescale_some
    (List.zipWith (fun t c => max 0 (t - c))
      (Wq.map (fun w => w * (current.sum + cash))) current)
    cash (zipWith_max0_nonneg _ _) hc
  rw [hnp]
  constructor
  · intro a ha
    obtain ⟨b, hb, rfl⟩ := List.mem_map.mp ha
    exact ⟨b, rfl, hbpos b hb⟩
  · rw [skipnaSum_map_some]
    exact hbsum

/-- With every per-asset volatility finite and positive, the inverse-vol
weights of `RiskParityStrategy` are all finite. -/
theorem riskParityW_some (volq : List ℚ) (hvq : ∀ q ∈ volq, 0 < q) :
    ∃ wq : List ℚ, riskParityW (volq.map some) = wq.map some := by
  simp only [riskParityW]
  have h1 : (volq.map some).map replaceZeroNaN = volq.map some := by
    rw [List.map_map]
    refine List.map_congr_left ?_
    intro q hq
    show replaceZeroNaN (some q) = some q
    rw [show replaceZeroNaN (some q) = if q = 0 then none else some q from rfl,
      if_neg (ne_of_gt (hvq q hq))]
  rw [h1]
  have h2 : List.map (fun v => odiv (some 1) v) (volq.map some)
      = (volq.map (fun q => (1:ℚ) / q)).map some := by
    simp only [List.map_map]
    refine List.map_congr_left ?_
    intro q hq
    show odiv (some 1) (some q) = some (1 / q)
    rw [show odiv (some 1) (some q) = if q = 0 then none else some (1/q) from rfl,
      if_neg (ne_of_gt (hvq q hq))]
  rw [h2, skipnaSum_map_some]
  by_cases hnil : volq = []
  · subst hnil
    exact ⟨[], rfl⟩
  · have hiq : ∀ q ∈ volq.map (fun q => (1:ℚ)/q), 0 < q := by
      intro q hq
      obtain ⟨v, hv, rfl⟩ := List.mem_map.mp hq
      exact one_div_pos.mpr (hvq v hv)
    have hiqnil : volq.map (fun q => (1:ℚ)/q) ≠ [] := by
      intro h
      exact hnil (List.map_eq_nil_iff.mp h)
    have hSpos : 0 < (volq.map (fun q => (1:ℚ)/q)).sum :=
      List.sum_pos _ hiq hiqnil
    refine ⟨(volq.map (fun q => (1:ℚ)/q)).map
      (fun q => q / (volq.map (fun q => (1:ℚ)/q)).sum), ?_⟩
    simp only [List.map_map]
    refine List.map_congr_left ?_
    intro q _
    show odiv (some (1/q)) (some (volq.map (fun q => (1:ℚ)/q)).sum) = _
    rw [show odiv (some (1/q)) (some (volq.map (fun q => (1:ℚ)/q)).sum)
      = if (volq.map (fun q => (1:ℚ)/q)).sum = 0 then none
        else some ((1/q) / (volq.map (fun q => (1:ℚ)/q)).sum) from rfl,
      if_neg (ne_of_gt hSpos)]
    rfl

/-- `RiskParityStrategy`: with every per-asset volatility finite and
positive, the returned New Allocation is all-finite, componentwise
non-negative, and totals at most the injected capital. -/
theorem riskparity_alloc_spec (vol : List OQ) (current : List ℚ) (cash : ℚ)
    (hvol : ∀ v ∈ vol, ∃ q, v = some q ∧ 0 < q) (hc : 0 ≤ cash) :
    (∀ a ∈ (riskParityOptimize vol current cash).alloc, ∃ q, a = some q ∧ 0 ≤ q) ∧
    skipnaSum (riskParityOptimize vol current cash).alloc ≤ cash := by
  obtain ⟨volq, rfl, hvq⟩ := all_some_decomp vol hvol
  obtain ⟨wq, hw⟩ := riskParityW_some volq hvq
  simp only [riskParityOptimize]
  rw [hw, List.map_map]
  have htar : wq.map ((fun wv => omul (some (current.sum + cash)) wv) ∘ some)
      = (wq.map (fun w => (current.sum + cash) * w)).map some := by
    rw [List.map_map]
    rfl
  rw [htar, buyOnlyAlloc_some]
  obtain ⟨bq, hsk, _, hbpos, hbsum⟩ := rescale_some
    (List.zipWith (fun t c => max 0 (t - c))
      (wq.map (fun w => (current.sum + cash) * w)) current)
    cash (zipWith_max0_nonneg _ _) hc
  rw [hsk]
  constructor
  · intro a ha
    obtain ⟨b, hb, rfl⟩ := List.mem_map.mp ha
    exact ⟨b, rfl, hbpos b hb⟩
  · rw [skipnaSum_map_some]
    exact hbsum

/-- C6 (amended): for `MomentumStrategy` the buy-only invariant holds
unconditionally (given non-negative inputs): the New Allocation is finite,
componentwise non-negative and sums to at most `new_capital` — exactly, no
epsilon needed in exact arithmetic.  For `RiskParityStrategy` the same holds
provided every asset's volatility is finite and positive; with a zero
volatility the allocation contains NaN (see the counterexample). -/
theorem claim6_thm (nTickers lookback : ℕ) (divers : Bool) (θ : ℚ)
    (current : List ℚ) (cash : ℚ) (rh : Mat) (vol : List OQ)
    (_hcur : ∀ x ∈ current, 0 ≤ x) (hc : 0 ≤ cash) :
    ((∀ a ∈ (momentumOptimize nTickers lookback divers θ current cash rh).alloc,
        ∃ q, a = some q ∧ 0 ≤ q) ∧
      skipnaSum (momentumOptimize nTickers lookback divers θ current cash rh).alloc ≤ cash) ∧
    ((∀ v ∈ vol, ∃ q, v = some q ∧ 0 < q) →
      (∀ a ∈ (riskParityOptimize vol current cash).alloc, ∃ q, a = some q ∧ 0 ≤ q) ∧
        skipnaSum (riskParityOptimize vol current cash).alloc ≤ cash) :=
  ⟨momentum_alloc_spec nTickers lookback divers θ current cash rh hc,
   fun hvol => riskparity_alloc_spec vol current cash hvol hc⟩

/-- C6 witness: the buy-only facts at a concrete momentum call and a concrete
risk-parity call with positive volatilities. -/
theorem claim6_witness :
    skipnaSum (momentumOptimize 2 6 false (1/10) [0, 0] 100 [[1/100, 2/100]]).alloc ≤ 100 ∧
    skipnaSum (riskParityOptimize [some 1, some 2] [0, 0] 100).alloc ≤ 100 :=
  ⟨(claim6_thm 2 6 false (1/10) [0, 0] 100 [[1/100, 2/100]] [some 1, some 2]
      (by intro x hx; simp only [List.mem_cons, List.not_mem_nil, or_false] at hx
          rcases hx with rfl | rfl <;> norm_num)
      (by norm_num)).1.2,
   ((claim6_thm 2 6 false (1/10) [0, 0] 100 [[1/100, 2/100]] [some 1, some 2]
      (by intro x hx; simp only [List.mem_cons, List.not_mem_nil, or_false] at hx
          rcases hx with rfl | rfl <;> norm_num)
      (by norm_num)).2
    (by intro v hv; simp only [List.mem_cons, List.not_mem_nil, or_false] at hv
        rcases hv with rfl | rfl
        · exact ⟨1, rfl, by norm_num⟩
        · exact ⟨2, rfl, by norm_num⟩)).2⟩

/-- C6 (counterexample): the returns history `[[0,-3],[0,0],[0,3]]` has
sample variances `[0, 9]`, hence volatilities `[0, 3]`; on it RiskParity's
New Allocation is `[NaN, 100]` even though the current portfolio is `[0,0]`
and the new capital is 100 — the componentwise non-negativity of the claim
fails because the zero-volatility asset's weight is NaN. -/
theorem claim6_counterexample :
    colVars 2 [[0, -3], [0, 0], [0, 3]] = [some 0, some 9] ∧
    (3:ℚ)^2 = 9 ∧
    (riskParityOptimize [some 0, some 3] [0, 0] 100).alloc = [none, some 100] ∧
    ¬ ∃ q, (none : OQ) = some q ∧ 0 ≤ q := by
  refine ⟨?_, by norm_num, ?_, by simp⟩
  · norm_num [colVars, (show List.range 2 = [0, 1] from rfl),
      List.getD_cons_zero, List.getD_cons_succ]
  · norm_num [riskParityOptimize, riskParityW, replaceZeroNaN, buyOnlyAlloc,
      rescaleSkipna, skipnaSum, odiv, omul, osub, omax0, oadd,
      List.filterMap_cons, List.filterMap_nil]

/-- Reading any position of a constant row gives the constant (or the equal
default). -/
theorem getD_replicate_zero (n j : ℕ) : (List.replicate n (0:ℚ)).getD j 0 = 0 := by
  rcases lt_or_ge j n with h | h
  · rw [List.getD_eq_getElem?_getD, List.getElem?_replicate, if_pos h]
    rfl
  · rw [List.getD_eq_getElem?_getD, List.getElem?_replicate, if_neg (not_lt.mpr h)]
    rfl

/-- A constant (zero-variance) return history has per-asset sample variance
exactly 0. -/
theorem colVars_replicate_const (n m : ℕ) (c : List ℚ) (h : 2 ≤ m) :
    colVars n (List.replicate m c) = List.replicate n (some 0) := by
  unfold colVars
  have hm : ((m:ℚ)) ≠ 0 := Nat.cast_ne_zero.mpr (by omega)
  have h2 : ∀ j ∈ List.range n,
      (if (List.replicate m c).length ≤ 1 then (none : OQ)
       else
        some ((((List.replicate m c).map (fun r => r.getD j 0)).map
          (fun x => (x - ((List.replicate m c).map (fun r => r.getD j 0)).sum /
            (((List.replicate m c).map (fun r => r.getD j 0)).length : ℚ)) ^ 2)).sum /
              ((((List.replicate m c).map (fun r => r.getD j 0)).length : ℚ) - 1)))
      = some (0:ℚ) := by
    intro j _
    rw [if_neg (by rw [List.length_replicate]; omega)]
    congr 1
    rw [List.map_replicate, List.sum_replicate, List.length_replicate,
      nsmul_eq_mul, mul_div_cancel_left₀ _ hm, List.map_replicate, sub_self]
    simp
  rw [List.map_congr_left h2, map_const_replicate, List.length_range]

/-- On an all-zero return history the momentum signal is identically zero. -/
theorem momentumSignal_flat (n lookback : ℕ) (θ : ℚ) (m : ℕ) (hm : 1 ≤ m) :
    momentumSignal n lookback θ (List.replicate m (List.replicate n (0:ℚ)))
      = List.replicate n (some 0) := by
  simp only [momentumSignal]
  have htail : (if lookback = 0 then List.replicate m (List.replicate n (0:ℚ))
      else (List.replicate m (List.replicate n (0:ℚ))).drop
        ((List.replicate m (List.replicate n (0:ℚ))).length - lookback))
      = List.replicate (if lookback = 0 then m else m - (m - lookback))
          (List.replicate n 0) := by
    split
    · rfl
    · rw [List.length_replicate, List.drop_replicate]
  rw [htail]
  have hm2pos : 1 ≤ (if lookback = 0 then m else m - (m - lookback)) := by
    split <;> omega
  have hmean : colMeans n (List.replicate (if lookback = 0 then m else m - (m - lookback))
      (List.replicate n (0:ℚ))) = List.replicate n (some 0) := by
    rw [colMeans_ne_nil _ _ (by rw [List.length_replicate]; omega)]
    have hz : ∀ j ∈ List.range n,
        ((List.replicate (if lookback = 0 then m else m - (m - lookback))
          (List.replicate n (0:ℚ))).map (fun r => r.getD j 0)).sum /
        (((List.replicate (if lookback = 0 then m else m - (m - lookback))
          (List.replicate n (0:ℚ))).length : ℚ)) = 0 := by
      intro j _
      rw [List.map_replicate, getD_replicate_zero, List.sum_replicate, smul_zero,
        zero_div]
    rw [List.map_congr_left hz, map_const_replicate, List.length_range,
      List.map_replicate]
  rw [hmean, List.map_replicate]
  have hclip : clipNeg (some (0:ℚ)) = some 0 := by
    rw [clipNeg_some]
    simp
  rw [hclip]
  have hvlen : (colVars n (List.replicate (if lookback = 0 then m else m - (m - lookback))
      (List.replicate n (0:ℚ)))).length = n := by
    simp [colVars]
  rw [zipWith_replicate_left_eq _ _ _ n hvlen]
  have hconst : ∀ va ∈ colVars n (List.replicate (if lookback = 0 then m else m - (m - lookback))
      (List.replicate n (0:ℚ))),
      (fun va => if momVolExceeds va θ = true then some (0:ℚ) else some 0) va
        = (fun _ => some (0:ℚ)) va := by
    intro va _
    exact ite_self _
  rw [List.map_congr_left hconst, map_const_replicate, hvlen]

/-- On an all-zero return history the momentum weights are exactly `1/N`
(equal-weight fallback; the diversification blend of two equal-weight
vectors is the equal-weight vector). -/
theorem momentumWeights_flat (n lookback : ℕ) (divers : Bool) (θ : ℚ) (m : ℕ)
    (hm : 1 ≤ m) :
    momentumWeights n lookback divers θ (List.replicate m (List.replicate n (0:ℚ)))
      = List.replicate n (some (1 / (n:ℚ))) := by
  simp only [momentumWeights]
  rw [momentumSignal_flat n lookback θ m hm]
  have hz : skipnaSum (List.replicate n (some (0:ℚ))) = 0 := by
    have hrep : (List.replicate n (some (0:ℚ))) = (List.replicate n (0:ℚ)).map some := by
      rw [List.map_replicate]
    rw [hrep, skipnaSum_map_some, List.sum_replicate, smul_zero]
  rw [if_pos hz]
  cases divers with
  | false => simp
  | true =>
    rw [if_pos rfl, zipWith_replicate_both]
    congr 1
    show some (7/10 * (1/(n:ℚ)) + 3/10 * (1/(n:ℚ))) = some (1/(n:ℚ))
    congr 1
    ring

/-- Risk parity with every volatility exactly zero: the weights come out all
zero (pandas' NaN-skipping sums turn the all-NaN portfolio into a zero
total, selecting the `np.zeros_like` branch) and every allocation is NaN. -/
theorem riskparity_zero_vol (n : ℕ) (current : List ℚ) (cash : ℚ)
    (hlen : current.length = n) (hc : 0 ≤ cash) :
    (riskParityOptimize (List.replicate n (some (0:ℚ))) current cash).weights =
      List.replicate n (some 0) ∧
    (riskParityOptimize (List.replicate n (some (0:ℚ))) current cash).alloc =
      List.replicate n none := by
  have hW : riskParityW (List.replicate n (some (0:ℚ))) = List.replicate n none := by
    simp only [riskParityW]
    rw [List.map_replicate]
    rw [show replaceZeroNaN (some (0:ℚ)) = none from by
      rw [show replaceZeroNaN (some (0:ℚ)) = if (0:ℚ) = 0 then none else some 0 from rfl,
        if_pos rfl]]
    rw [List.map_replicate, show odiv (some (1:ℚ)) none = none from rfl,
      List.map_replicate]
    rfl
  simp only [riskParityOptimize]
  rw [hW, List.map_replicate,
    show omul (some (List.sum current + cash)) none = none from rfl]
  have halloc : buyOnlyAlloc (List.replicate n none) current = List.replicate n none := by
    rw [buyOnlyAlloc, zipWith_replicate_left_eq _ _ current n hlen]
    have hmap : ∀ c ∈ current, (fun c => omax0 (osub none (some c))) c
        = (fun _ => (none : OQ)) c := fun c _ => rfl
    rw [List.map_congr_left hmap, map_const_replicate, hlen]
  rw [halloc]
  have hresc : rescaleSkipna (List.replicate n none) cash = List.replicate n none := by
    rw [rescaleSkipna, skipnaSum_replicate_none, if_neg (not_lt.mpr hc)]
  rw [hresc]
  refine ⟨?_, rfl⟩
  have hnp : List.zipWith (fun c a => oadd (some c) a) current (List.replicate n none)
      = List.replicate n none := by
    rw [zipWith_replicate_right_eq _ _ current n hlen]
    have hmap : ∀ c ∈ current, (fun c => oadd (some c) none) c
        = (fun _ => (none : OQ)) c := fun c _ => rfl
    rw [List.map_congr_left hmap, map_const_replicate, hlen]
  rw [hnp, skipnaSum_replicate_none, if_neg (lt_irrefl 0), List.length_replicate]

/-- C8 (amended): a constant return history has per-asset sample variance 0;
on an all-zero history MomentumStrategy does fall back to exactly `1/N`
finite weights; but RiskParityStrategy with all volatilities zero returns
all-ZERO weights and all-NaN allocations — not the `1/N` equal-weight
fallback the claim asserts. -/
theorem claim8_thm :
    (∀ (n m : ℕ) (c : List ℚ), 2 ≤ m →
      colVars n (List.replicate m c) = List.replicate n (some 0)) ∧
    (∀ (n lookback : ℕ) (divers : Bool) (θ : ℚ) (current : List ℚ) (cash : ℚ) (m : ℕ),
      1 ≤ m →
      (momentumOptimize n lookback divers θ current cash
        (List.replicate m (List.replicate n 0))).weights =
        List.replicate n (some (1 / (n:ℚ)))) ∧
    (∀ (n : ℕ) (current : List ℚ) (cash : ℚ), current.length = n → 0 ≤ cash →
      (riskParityOptimize (List.replicate n (some 0)) current cash).weights =
        List.replicate n (some 0) ∧
      (riskParityOptimize (List.replicate n (some 0)) current cash).alloc =
        List.replicate n none) := by
  refine ⟨colVars_replicate_const, ?_, riskparity_zero_vol⟩
  intro n lookback divers θ current cash m hm
  show momentumWeights n lookback divers θ _ = _
  exact momentumWeights_flat n lookback divers θ m hm

/-- C8 witness: the fallback facts at two assets and two flat periods. -/
theorem claim8_witness :
    colVars 2 (List.replicate 2 [0, 0]) = List.replicate 2 (some 0) ∧
    (momentumOptimize 2 6 false (1/10) [0, 0] 100
      (List.replicate 2 (List.replicate 2 0))).weights =
      List.replicate 2 (some (1 / (2:ℚ))) ∧
    (riskParityOptimize (List.replicate 2 (some 0)) [0, 0] 100).weights =
      List.replicate 2 (some 0) ∧
    (riskParityOptimize (List.replicate 2 (some 0)) [0, 0] 100).alloc =
      List.replicate 2 none :=
  ⟨claim8_thm.1 2 2 [0, 0] (by norm_num),
   claim8_thm.2.1 2 6 false (1/10) [0, 0] 100 2 (by norm_num),
   (claim8_thm.2.2 2 [0, 0] 100 (by norm_num) (by norm_num)).1,
   (claim8_thm.2.2 2 [0, 0] 100 (by norm_num) (by norm_num)).2⟩

/-- C8 (counterexample): the all-zero two-period history has zero variance
for both assets, yet RiskParity's weights are `[0, 0]`, not the claimed
equal-weight fallback `[1/2, 1/2]`. -/
theorem claim8_counterexample :
    colVars 2 [[0, 0], [0, 0]] = [some 0, some 0] ∧
    (riskParityOptimize [some 0, some 0] [0, 0] 100).weights = [some 0, some 0] ∧
    ([some (0:ℚ), some 0] : List OQ) ≠ [some (1/2 : ℚ), some (1/2)] := by
  refine ⟨?_, ?_, by norm_num⟩
  · norm_num [colVars, (show List.range 2 = [0, 1] from rfl),
      List.getD_cons_zero, List.getD_cons_succ, List.replicate]
  · norm_num [riskParityOptimize, riskParityW, replaceZeroNaN, buyOnlyAlloc,
      rescaleSkipna, skipnaSum, odiv, omul, osub, omax0, oadd,
      List.filterMap_cons, List.filterMap_nil, List.replicate]

end PortfolioBacktest
